import Mathlib

/-!
# Verification of the pi-token-burden core

A shallow embedding, in Lean 4, of the core logic of the `pi-token-burden`
repository (a token-budget breakdown tool for an AI coding agent's system
prompt), together with proofs about that embedding.

Embedded components (each definition mirrors the TypeScript source):

* `src/utils.ts`   — `fuzzyScore`, `fuzzyFilter`, `buildBarSegments`
* `src/parser.ts`  — `parseSystemPrompt` and its helpers
* `src/report-view.ts` — `buildTableItems` and the `BudgetOverlay`
  input-handling state machine.

Modelling conventions:

* JavaScript strings are modelled as `List Char` (`Str`); all inputs of
  interest are BMP text, where JS string indices and `List Char` indices
  agree.  Line splitting models `\n` line breaks.
* JavaScript numbers appearing in integer positions are modelled as `Int`
  (or `Nat` where the source value is a count), and real-valued
  intermediate results (proportional shares, fuzzy scores) as `ℚ`,
  with `Int.floor` for `Math.floor`.
* The external BPE tokenizer (`estimateTokens`) is opaque to the core, so
  the parser is parameterised by an arbitrary counter `tok : Str → Nat`.
* `Array.prototype.toSorted` and `Array.prototype.sort` are stable sorts;
  they are modelled by `List.insertionSort`, which is stable for the same
  comparator-induced total preorder and hence extensionally identical.
-/

/- Restore the default reducibility of the core `Rat` operations so that
concrete rational arithmetic evaluates under `decide`. -/
attribute [local semireducible] Rat.mul Rat.add Rat.sub Rat.inv

namespace PiTokenBurden

/-- JavaScript strings, modelled as lists of characters. -/
abbrev Str := List Char

/-- `String.prototype.indexOf`: index of the first occurrence of `pat` in
`s`, or `-1` when there is none (`0` for the empty pattern). -/
def listIndexOf (s pat : Str) : Int :=
  match s with
  | [] => if pat.isPrefixOf ([] : Str) then 0 else -1
  | c :: t =>
    if pat.isPrefixOf (c :: t) then 0
    else
      let r := listIndexOf t pat
      if 0 ≤ r then r + 1 else -1

/-- `String.prototype.lastIndexOf`: index of the last occurrence of `pat`
in `s`, or `-1` when there is none (`s.length` for the empty pattern). -/
def listLastIndexOf (s pat : Str) : Int :=
  match s with
  | [] => if pat.isEmpty then 0 else -1
  | c :: t =>
    let r := listLastIndexOf t pat
    if 0 ≤ r then r + 1
    else if pat.isPrefixOf (c :: t) then 0 else -1

/-- Clamp a JS slice index into `[0, len]` (negative indices count from the
end, as in `String.prototype.slice`). -/
def jsClamp (len : Nat) (i : Int) : Nat :=
  if i < 0 then (max ((len : Int) + i) 0).toNat else min i.toNat len

/-- `s.slice(a, b)` for JavaScript strings. -/
def jsSlice (s : Str) (a b : Int) : Str :=
  (s.take (jsClamp s.length b)).drop (jsClamp s.length a)

/-- `s.slice(a)` for JavaScript strings. -/
def jsSliceFrom (s : Str) (a : Int) : Str :=
  jsSlice s a s.length

/-- The JS whitespace test used by `String.prototype.trim`, restricted to
the ASCII whitespace characters that can occur in our inputs. -/
def jsIsWs (c : Char) : Bool := c.isWhitespace

/-- `String.prototype.trim`: strip leading and trailing whitespace. -/
def trimStr (s : Str) : Str :=
  ((s.dropWhile jsIsWs).reverse.dropWhile jsIsWs).reverse

/-- `String.prototype.includes`: `true` when `pat` occurs in `s`. -/
def listIncludes (s pat : Str) : Bool :=
  0 ≤ listIndexOf s pat

/-! ## `src/utils.ts` — fuzzy matcher -/

/-- The character-by-character loop of `fuzzyScore` (`utils.ts` lines
17–29): walk the text, matching query characters greedily; award
`10 + consecutiveBonus` per matched character, growing the bonus by 5 on a
match and resetting it to 0 on a miss.  Returns the accumulated score and
the unmatched remainder of the query (the loop stops when either the text
or the query is exhausted). -/
def fuzzyLoop : Str → Str → Nat → Nat → Nat × Str
  | _, [], score, _ => (score, [])
  | [], q :: qs, score, _ => (score, q :: qs)
  | c :: ts, q :: qs, score, bonus =>
    if c = q then fuzzyLoop ts qs (score + 10 + bonus) (bonus + 5)
    else fuzzyLoop ts (q :: qs) score 0

/-- `fuzzyScore` (`utils.ts` lines 7–32): an exact case-insensitive
substring match scores `100 + (|query|/|text|)·50`; otherwise the greedy
subsequence walk scores the query, and the result is 0 unless the whole
query was consumed. -/
def fuzzyScore (query text : Str) : ℚ :=
  let lowerQuery := query.map Char.toLower
  let lowerText := text.map Char.toLower
  if listIncludes lowerText lowerQuery then
    100 + ((lowerQuery.length : ℚ) / (lowerText.length : ℚ)) * 50
  else
    let r := fuzzyLoop lowerText lowerQuery 0 0
    if r.2.isEmpty then (r.1 : ℚ) else 0

/-- The descending-score preorder used by `fuzzyFilter`'s stable
`toSorted((a, b) => b.score - a.score)`. -/
def scoreGE {α : Type*} (a b : α × ℚ) : Prop := b.2 ≤ a.2

instance {α : Type*} : DecidableRel (@scoreGE α) :=
  fun a b => inferInstanceAs (Decidable (b.2 ≤ a.2))

instance {α : Type*} : IsTotal (α × ℚ) scoreGE := ⟨fun a b => le_total b.2 a.2⟩

instance {α : Type*} : IsTrans (α × ℚ) scoreGE :=
  ⟨fun _ _ _ h1 h2 => le_trans h2 h1⟩

/-- `fuzzyFilter` (`utils.ts` lines 38–52), generalised over the label
projection (the source's `T extends FilterItem`): empty/whitespace query
returns the items unchanged; otherwise score each item's label, drop
scores ≤ 0, stably sort by descending score and return the items. -/
def fuzzyFilter {α : Type*} (label : α → Str) (items : List α) (query : Str) :
    List α :=
  if (trimStr query).isEmpty then items
  else
    let scored := items.map fun it => (it, fuzzyScore query (label it))
    let filtered := scored.filter fun e => decide (0 < e.2)
    (filtered.insertionSort scoreGE).map Prod.fst

/-! ## `src/utils.ts` — bar-segment allocator -/

/-- Input record of `buildBarSegments`: `{ label, tokens }`. -/
structure SecIn where
  label : Str
  tokens : Nat
  deriving DecidableEq, Repr

/-- `BarSegment` of `types.ts`: `{ label, width }`. -/
structure BarSegment where
  label : Str
  width : Int
  deriving DecidableEq, Repr

/-- The all-zero-tokens branch of `buildBarSegments` (`utils.ts` lines
69–77): each section gets `baseWidth`, and the first `remainder` sections
get one extra unit (the source decrements a mutable `remainder` as it
maps; here `i` counts the sections already emitted). -/
def zeroSegs (base remainder : Int) : Nat → List SecIn → List BarSegment
  | _, [] => []
  | i, s :: t =>
    ⟨s.label, base + if remainder - i > 0 then 1 else 0⟩ :: zeroSegs base remainder (i + 1) t

/-- `fractionals` of `utils.ts` line 91: pair each raw share's index with
`raw[i] - widths[i]`. -/
def fracPairs (widths : List Int) : Nat → List ℚ → List (Nat × ℚ)
  | _, [] => []
  | i, w :: t => (i, w - (widths.getD i 0 : ℚ)) :: fracPairs widths (i + 1) t

/-- The descending-fraction preorder of `fractionals.sort((a, b) => b.frac - a.frac)`. -/
def fracGE (a b : Nat × ℚ) : Prop := b.2 ≤ a.2

instance : DecidableRel fracGE := fun a b => inferInstanceAs (Decidable (b.2 ≤ a.2))

instance : IsTotal (Nat × ℚ) fracGE := ⟨fun a b => le_total b.2 a.2⟩

instance : IsTrans (Nat × ℚ) fracGE := ⟨fun _ _ _ h1 h2 => le_trans h2 h1⟩

/-- `widths[j]++` (in-range increment; `List.set` is the identity out of
range, and the source only ever increments in-range indices). -/
def incAt (ws : List Int) (j : Nat) : List Int :=
  ws.set j (ws.getD j 0 + 1)

/-- The `diff > 0` distribution loop of `utils.ts` lines 93–95:
`widths[fractionals[i % fractionals.length].index]++` for `i` from 0 to
`diff - 1`, where `order` lists the fraction-sorted indices. -/
def distribLoop (order : List Nat) : Nat → Nat → List Int → List Int
  | _, 0, ws => ws
  | i, k + 1, ws => distribLoop order (i + 1) k (incAt ws (order.getD (i % order.length) 0))

/-- The inner argmax scan of `utils.ts` lines 99–104: `maxIdx = 0`, then
for `j = 1, …`: if `widths[j] > widths[maxIdx]` take `j`. -/
def argmax (ws : List Int) : Nat :=
  (ws.enum.drop 1).foldl (fun maxIdx p => if p.2 > ws.getD maxIdx 0 then p.1 else maxIdx) 0

/-- One iteration of the largest-first steal loop (`utils.ts` lines
98–108): decrement the first maximal width, but never below 1. -/
def stealOnce (ws : List Int) : List Int :=
  let maxIdx := argmax ws
  if ws.getD maxIdx 0 > 1 then ws.set maxIdx (ws.getD maxIdx 0 - 1) else ws

/-- The steal loop, run `-diff` times. -/
def stealLoop : Nat → List Int → List Int
  | 0, ws => ws
  | k + 1, ws => stealLoop k (stealOnce ws)

/-- `sections.map((s, i) => ({label: s.label, width: widths[i]}))`. -/
def attachWidths : Nat → List SecIn → List Int → List BarSegment
  | _, [], _ => []
  | i, s :: t, ws => ⟨s.label, ws.getD i 0⟩ :: attachWidths (i + 1) t ws

/-- The `totalTokens === 0` branch of `buildBarSegments` (`utils.ts` lines
69–77): `baseWidth = Math.floor(barWidth / sections.length)`,
`remainder = barWidth - baseWidth * sections.length`, then an even split. -/
def zeroBranch (sections : List SecIn) (barWidth : Int) : List BarSegment :=
  let n : Int := sections.length
  let baseWidth : Int := ⌊(barWidth : ℚ) / (n : ℚ)⌋
  let remainder : Int := barWidth - baseWidth * n
  zeroSegs baseWidth remainder 0 sections

/-- The proportional branch of `buildBarSegments` (`utils.ts` lines
79–111): floor the raw shares, clamp to a minimum of 1, then reconcile the
rounding error (distribute a positive `diff` by descending fractional
part, or steal a negative `diff` from the largest widths). -/
def weightedBranch (sections : List SecIn) (barWidth : Int) : List BarSegment :=
  let totalTokens : Nat := (sections.map SecIn.tokens).sum
  let raw : List ℚ :=
    sections.map fun s => ((s.tokens : ℚ) / (totalTokens : ℚ)) * barWidth
  let widths : List Int := raw.map fun w => max 1 ⌊w⌋
  let currentTotal := widths.sum
  let diff := barWidth - currentTotal
  let widths2 :=
    if diff > 0 then
      let fractionals := fracPairs widths 0 raw
      let sorted := fractionals.insertionSort fracGE
      distribLoop (sorted.map Prod.fst) 0 diff.toNat widths
    else if diff < 0 then stealLoop (-diff).toNat widths
    else widths
  attachWidths 0 sections widths2

/-- `buildBarSegments` (`utils.ts` lines 58–112). -/
def buildBarSegments (sections : List SecIn) (barWidth : Int) : List BarSegment :=
  if sections.length = 0 then []
  else
    let totalTokens : Nat := (sections.map SecIn.tokens).sum
    if totalTokens = 0 then zeroBranch sections barWidth
    else weightedBranch sections barWidth

/-! ### Allocator lemmas -/

theorem zeroSegs_sum (base r : Int) :
    ∀ (l : List SecIn) (i : Nat),
      ((zeroSegs base r i l).map BarSegment.width).sum
        = base * l.length + min (max (r - i) 0) l.length := by
  intro l
  induction l with
  | nil => intro i; simp [zeroSegs]
  | cons s t ih =>
    intro i
    have ht := ih (i + 1)
    simp only [zeroSegs, List.map_cons, List.sum_cons, ht, List.length_cons]
    split <;> push_cast <;> rw [mul_add, mul_one] <;> omega

theorem zeroSegs_min (base r : Int) (hb : 1 ≤ base) :
    ∀ (l : List SecIn) (i : Nat), ∀ seg ∈ zeroSegs base r i l, 1 ≤ seg.width := by
  intro l
  induction l with
  | nil => intro i seg h; simp [zeroSegs] at h
  | cons s t ih =>
    intro i seg h
    simp only [zeroSegs, List.mem_cons] at h
    rcases h with h | h
    · subst h; dsimp only; split <;> omega
    · exact ih (i + 1) seg h

theorem floor_div_bounds (W n : Int) (hn : 0 < n) :
    ⌊(W : ℚ) / (n : ℚ)⌋ * n ≤ W ∧ W < ⌊(W : ℚ) / (n : ℚ)⌋ * n + n := by
  have hnq : (0 : ℚ) < (n : ℚ) := by exact_mod_cast hn
  have h1 : ((⌊(W : ℚ) / (n : ℚ)⌋ : ℚ)) * (n : ℚ) ≤ (W : ℚ) :=
    (le_div_iff₀ hnq).mp (Int.floor_le _)
  have h2 : (W : ℚ) < ((⌊(W : ℚ) / (n : ℚ)⌋ : ℚ) + 1) * (n : ℚ) :=
    (div_lt_iff₀ hnq).mp (Int.lt_floor_add_one _)
  constructor
  · exact_mod_cast h1
  · have : W < (⌊(W : ℚ) / (n : ℚ)⌋ + 1) * n := by exact_mod_cast h2
    linarith [this]

theorem floor_div_ge_one (W n : Int) (hn : 0 < n) (hW : n ≤ W) :
    1 ≤ ⌊(W : ℚ) / (n : ℚ)⌋ := by
  have hnq : (0 : ℚ) < (n : ℚ) := by exact_mod_cast hn
  refine Int.le_floor.mpr ?_
  rw [le_div_iff₀ hnq]
  have : (n : ℚ) ≤ (W : ℚ) := by exact_mod_cast hW
  push_cast
  linarith

theorem sum_ge_length (ws : List Int) (h : ∀ w ∈ ws, 1 ≤ w) :
    (ws.length : Int) ≤ ws.sum := by
  induction ws with
  | nil => simp
  | cons w t ih =>
    have hw := h w (List.mem_cons_self w t)
    have ht := ih fun x hx => h x (List.mem_cons_of_mem w hx)
    simp only [List.length_cons, List.sum_cons]
    push_cast
    omega

theorem all_one_of_sum_le_length (ws : List Int) (h1 : ∀ w ∈ ws, 1 ≤ w)
    (h2 : ws.sum ≤ (ws.length : Int)) : ∀ w ∈ ws, w = 1 := by
  induction ws with
  | nil => intro w hw; simp at hw
  | cons w t ih =>
    have hw := h1 w (List.mem_cons_self w t)
    have hmins : ∀ x ∈ t, 1 ≤ x := fun x hx => h1 x (List.mem_cons_of_mem w hx)
    have hts := sum_ge_length t hmins
    simp only [List.sum_cons, List.length_cons] at h2
    push_cast at h2
    intro x hx
    rcases List.mem_cons.mp hx with h | h
    · subst h; omega
    · exact ih hmins (by omega) x h

theorem sum_set_eq (v : Int) :
    ∀ (ws : List Int) (j : Nat), j < ws.length →
      (ws.set j v).sum = ws.sum - ws.getD j 0 + v := by
  intro ws
  induction ws with
  | nil => intro j hj; simp at hj
  | cons w t ih =>
    intro j hj
    cases j with
    | zero => simp [List.set]; ring
    | succ j =>
      simp only [List.set, List.sum_cons, List.getD_cons_succ]
      have := ih j (by simpa using hj)
      rw [this]; ring

theorem getD_mem_of_lt (ws : List Int) (j : Nat) (hj : j < ws.length) :
    ws.getD j 0 ∈ ws := by
  rw [List.getD_eq_getElem?_getD, List.getElem?_eq_getElem hj]
  exact List.getElem_mem hj

theorem incAt_length (ws : List Int) (j : Nat) : (incAt ws j).length = ws.length := by
  simp [incAt]

theorem incAt_sum (ws : List Int) (j : Nat) (hj : j < ws.length) :
    (incAt ws j).sum = ws.sum + 1 := by
  unfold incAt
  rw [sum_set_eq _ _ _ hj]
  ring

theorem incAt_min (ws : List Int) (j : Nat) (h : ∀ w ∈ ws, 1 ≤ w) :
    ∀ w ∈ incAt ws j, 1 ≤ w := by
  intro w hw
  rcases List.mem_or_eq_of_mem_set hw with h1 | h1
  · exact h w h1
  · subst h1
    by_cases hj : j < ws.length
    · have := h _ (getD_mem_of_lt ws j hj)
      omega
    · rw [List.getD_eq_default] <;> omega

theorem distribLoop_facts (order : List Nat) (n : Nat) (ho : order ≠ [])
    (hbound : ∀ x ∈ order, x < n) :
    ∀ (k i : Nat) (ws : List Int), ws.length = n → (∀ w ∈ ws, 1 ≤ w) →
      (distribLoop order i k ws).length = n ∧
      (distribLoop order i k ws).sum = ws.sum + k ∧
      (∀ w ∈ distribLoop order i k ws, 1 ≤ w) := by
  intro k
  induction k with
  | zero => intro i ws hlen hmin; exact ⟨hlen, by simp [distribLoop], by simpa [distribLoop] using hmin⟩
  | succ k ih =>
    intro i ws hlen hmin
    have hol : 0 < order.length := List.length_pos.mpr ho
    have hidx : i % order.length < order.length := Nat.mod_lt _ hol
    have hjmem : order.getD (i % order.length) 0 ∈ order := by
      rw [List.getD_eq_getElem?_getD, List.getElem?_eq_getElem hidx]
      exact List.getElem_mem hidx
    have hj : order.getD (i % order.length) 0 < n := hbound _ hjmem
    have hjlt : order.getD (i % order.length) 0 < ws.length := by omega
    have h1 := incAt_length ws (order.getD (i % order.length) 0)
    have h2 := incAt_sum ws (order.getD (i % order.length) 0) hjlt
    have h3 := incAt_min ws (order.getD (i % order.length) 0) hmin
    have := ih (i + 1) (incAt ws (order.getD (i % order.length) 0)) (by omega) h3
    refine ⟨this.1, ?_, this.2.2⟩
    rw [show distribLoop order i (k + 1) ws
        = distribLoop order (i + 1) k (incAt ws (order.getD (i % order.length) 0)) from rfl]
    rw [this.2.1, h2]
    push_cast
    ring

theorem argmax_fold_inv (ws : List Int) (l : List (Nat × Int))
    (hl : ∀ p ∈ l, p.1 < ws.length ∧ ws.getD p.1 0 = p.2) :
    ∀ acc, acc < ws.length →
      (l.foldl (fun m p => if p.2 > ws.getD m 0 then p.1 else m) acc) < ws.length ∧
      ws.getD acc 0 ≤ ws.getD (l.foldl (fun m p => if p.2 > ws.getD m 0 then p.1 else m) acc) 0 ∧
      ∀ p ∈ l, ws.getD p.1 0 ≤
        ws.getD (l.foldl (fun m p => if p.2 > ws.getD m 0 then p.1 else m) acc) 0 := by
  induction l with
  | nil => intro acc hacc; exact ⟨hacc, le_refl _, by simp⟩
  | cons p t ih =>
    intro acc hacc
    have hp := hl p (List.mem_cons_self p t)
    have hlt : ∀ q ∈ t, q.1 < ws.length ∧ ws.getD q.1 0 = q.2 :=
      fun q hq => hl q (List.mem_cons_of_mem p hq)
    simp only [List.foldl_cons]
    by_cases hcmp : p.2 > ws.getD acc 0
    · rw [if_pos hcmp]
      obtain ⟨r1, r2, r3⟩ := ih hlt p.1 hp.1
      refine ⟨r1, ?_, ?_⟩
      · calc ws.getD acc 0 ≤ p.2 := le_of_lt hcmp
          _ = ws.getD p.1 0 := hp.2.symm
          _ ≤ _ := r2
      · intro q hq
        rcases List.mem_cons.mp hq with h | h
        · subst h; exact r2
        · exact r3 q h
    · rw [if_neg hcmp]
      obtain ⟨r1, r2, r3⟩ := ih hlt acc hacc
      refine ⟨r1, r2, ?_⟩
      intro q hq
      rcases List.mem_cons.mp hq with h | h
      · subst h
        calc ws.getD q.1 0 = q.2 := hp.2
          _ ≤ ws.getD acc 0 := le_of_not_lt hcmp
          _ ≤ _ := r2
      · exact r3 q h

theorem argmax_spec (ws : List Int) (h : ws ≠ []) :
    argmax ws < ws.length ∧ ∀ j, j < ws.length → ws.getD j 0 ≤ ws.getD (argmax ws) 0 := by
  have hlen : 0 < ws.length := List.length_pos.mpr h
  have henum : ∀ p ∈ ws.enum.drop 1, p.1 < ws.length ∧ ws.getD p.1 0 = p.2 := by
    intro p hp
    have hp2 : p ∈ ws.enum := List.mem_of_mem_drop hp
    have : ws.get? p.1 = some p.2 := by
      have := List.mem_enum_iff_get?.mp hp2
      simpa using this
    have hlt : p.1 < ws.length := by
      have := List.get?_eq_some.mp this
      exact this.1
    refine ⟨hlt, ?_⟩
    rw [List.getD_eq_getElem?_getD]
    simp only [← List.get?_eq_getElem?]
    rw [this]
    rfl
  obtain ⟨r1, r2, r3⟩ := argmax_fold_inv ws (ws.enum.drop 1) henum 0 hlen
  refine ⟨r1, ?_⟩
  intro j hj
  cases j with
  | zero => exact r2
  | succ j =>
    refine r3 (j + 1, ws.getD (j + 1) 0) ?_
    have hmem : (j + 1, ws.getD (j + 1) 0) ∈ ws.enum := by
      rw [List.mem_enum_iff_get?]
      simp only [List.get?_eq_getElem?, List.getElem?_eq_getElem hj]
      rw [List.getD_eq_getElem?_getD, List.getElem?_eq_getElem hj]
      rfl
    cases hws : ws with
    | nil => subst hws; simp at hlen
    | cons w t =>
      subst hws
      rw [List.enum_cons] at hmem ⊢
      rcases List.mem_cons.mp hmem with h1 | h1
      · exact absurd (congrArg Prod.fst h1) (by simp)
      · simpa using h1

theorem sum_le_length_of_le_one (ws : List Int) (h : ∀ w ∈ ws, w ≤ 1) :
    ws.sum ≤ (ws.length : Int) := by
  induction ws with
  | nil => simp
  | cons w t ih =>
    have hw := h w (List.mem_cons_self w t)
    have ht := ih fun x hx => h x (List.mem_cons_of_mem w hx)
    simp only [List.length_cons, List.sum_cons]
    push_cast
    omega

theorem stealOnce_facts (ws : List Int) (h : ws ≠ []) (hmin : ∀ w ∈ ws, 1 ≤ w) :
    (stealOnce ws).length = ws.length ∧
    (stealOnce ws).sum = (if (ws.length : Int) < ws.sum then ws.sum - 1 else ws.sum) ∧
    (∀ w ∈ stealOnce ws, 1 ≤ w) := by
  obtain ⟨ha1, ha2⟩ := argmax_spec ws h
  by_cases hgt : (ws.length : Int) < ws.sum
  · -- some element exceeds 1, so the maximum exceeds 1 and is decremented
    have hmaxgt : ws.getD (argmax ws) 0 > 1 := by
      by_contra hno
      push_neg at hno
      have hall : ∀ w ∈ ws, w ≤ 1 := by
        intro w hw
        obtain ⟨j, hj, hj2⟩ := List.mem_iff_getElem.mp hw
        have := ha2 j hj
        rw [List.getD_eq_getElem?_getD, List.getElem?_eq_getElem hj] at this
        simp only [Option.getD_some] at this
        omega
      have := sum_le_length_of_le_one ws hall
      omega
    rw [show stealOnce ws
        = ws.set (argmax ws) (ws.getD (argmax ws) 0 - 1) from if_pos hmaxgt]
    refine ⟨List.length_set ws _ _, ?_, ?_⟩
    · rw [sum_set_eq _ _ _ ha1, if_pos hgt]
      ring
    · intro w hw
      rcases List.mem_or_eq_of_mem_set hw with h1 | h1
      · exact hmin w h1
      · omega
  · -- every width is already 1, so nothing is stolen
    have hsum : ws.sum ≤ (ws.length : Int) := le_of_not_lt hgt
    have hall := all_one_of_sum_le_length ws hmin hsum
    have hmax1 : ws.getD (argmax ws) 0 = 1 := hall _ (getD_mem_of_lt ws _ ha1)
    rw [show stealOnce ws = ws from if_neg (by omega)]
    exact ⟨rfl, by rw [if_neg hgt], hmin⟩

theorem stealLoop_facts :
    ∀ (k : Nat) (ws : List Int), ws ≠ [] → (∀ w ∈ ws, 1 ≤ w) →
      (stealLoop k ws).length = ws.length ∧
      (stealLoop k ws).sum = max (ws.sum - k) (ws.length : Int) ∧
      (∀ w ∈ stealLoop k ws, 1 ≤ w) := by
  intro k
  induction k with
  | zero =>
    intro ws h hmin
    have := sum_ge_length ws hmin
    exact ⟨rfl, by simp only [stealLoop]; omega, hmin⟩
  | succ k ih =>
    intro ws h hmin
    obtain ⟨s1, s2, s3⟩ := stealOnce_facts ws h hmin
    have hne : stealOnce ws ≠ [] := by
      intro hc
      rw [hc] at s1
      exact h (List.eq_nil_of_length_eq_zero s1.symm)
    obtain ⟨r1, r2, r3⟩ := ih (stealOnce ws) hne s3
    have hsum := sum_ge_length ws hmin
    refine ⟨by rw [show stealLoop (k + 1) ws = stealLoop k (stealOnce ws) from rfl, r1, s1],
      ?_, by simpa [stealLoop] using r3⟩
    rw [show stealLoop (k + 1) ws = stealLoop k (stealOnce ws) from rfl, r2, s2, s1]
    split <;> push_cast <;> omega

theorem attachWidths_sum :
    ∀ (l : List SecIn) (ws : List Int) (i : Nat), i + l.length = ws.length →
      ((attachWidths i l ws).map BarSegment.width).sum = (ws.drop i).sum := by
  intro l
  induction l with
  | nil =>
    intro ws i hi
    simp only [List.length_nil] at hi
    simp only [attachWidths, List.map_nil, List.sum_nil]
    rw [List.drop_eq_nil_of_le (by omega)]
    rfl
  | cons s t ih =>
    intro ws i hi
    have hlt : i < ws.length := by simp at hi; omega
    simp only [attachWidths, List.map_cons, List.sum_cons]
    rw [ih ws (i + 1) (by simp at hi ⊢; omega)]
    rw [List.drop_eq_getElem_cons hlt, List.sum_cons,
      List.getD_eq_getElem?_getD, List.getElem?_eq_getElem hlt]
    rfl

theorem attachWidths_min (ws : List Int) (hmin : ∀ w ∈ ws, 1 ≤ w) :
    ∀ (l : List SecIn) (i : Nat), i + l.length = ws.length →
      ∀ seg ∈ attachWidths i l ws, 1 ≤ seg.width := by
  intro l
  induction l with
  | nil => intro i hi seg hseg; simp [attachWidths] at hseg
  | cons s t ih =>
    intro i hi seg hseg
    have hlt : i < ws.length := by simp at hi; omega
    rcases List.mem_cons.mp hseg with h1 | h1
    · subst h1
      exact hmin _ (getD_mem_of_lt ws i hlt)
    · exact ih (i + 1) (by simp at hi ⊢; omega) seg h1

theorem fracPairs_length (ws : List Int) :
    ∀ (l : List ℚ) (i : Nat), (fracPairs ws i l).length = l.length := by
  intro l
  induction l with
  | nil => intro i; rfl
  | cons w t ih => intro i; simp [fracPairs, ih]

theorem fracPairs_fst_lt (ws : List Int) :
    ∀ (l : List ℚ) (i : Nat), ∀ p ∈ fracPairs ws i l, p.1 < i + l.length := by
  intro l
  induction l with
  | nil => intro i p hp; simp [fracPairs] at hp
  | cons w t ih =>
    intro i p hp
    rcases List.mem_cons.mp hp with h1 | h1
    · subst h1; simp
    · have := ih (i + 1) p h1
      simp at this ⊢
      omega

theorem attachWidths_width_mem (ws : List Int) :
    ∀ (l : List SecIn) (i : Nat), i + l.length = ws.length →
      ∀ seg ∈ attachWidths i l ws, seg.width ∈ ws := by
  intro l
  induction l with
  | nil => intro i hi seg hseg; simp [attachWidths] at hseg
  | cons s t ih =>
    intro i hi seg hseg
    have hlt : i < ws.length := by simp at hi; omega
    rcases List.mem_cons.mp hseg with h1 | h1
    · subst h1
      exact getD_mem_of_lt ws i hlt
    · exact ih (i + 1) (by simp at hi ⊢; omega) seg h1

theorem zeroBranch_facts (sections : List SecIn) (barWidth : Int)
    (h1 : sections ≠ []) (h2 : (sections.length : Int) ≤ barWidth) :
    ((zeroBranch sections barWidth).map BarSegment.width).sum = barWidth ∧
    ∀ seg ∈ zeroBranch sections barWidth, 1 ≤ seg.width := by
  have hn : 0 < sections.length := List.length_pos.mpr h1
  have hnz : (0 : Int) < (sections.length : Int) := by exact_mod_cast hn
  obtain ⟨hb1, hb2⟩ := floor_div_bounds barWidth (sections.length : Int) hnz
  have hbase := floor_div_ge_one barWidth (sections.length : Int) hnz h2
  unfold zeroBranch
  constructor
  · rw [zeroSegs_sum]
    push_cast at hb1 hb2 hbase ⊢
    omega
  · exact zeroSegs_min _ _ hbase sections 0

theorem weightedBranch_facts (sections : List SecIn) (barWidth : Int)
    (h1 : sections ≠ []) :
    ((weightedBranch sections barWidth).map BarSegment.width).sum
      = max barWidth (sections.length : Int) ∧
    ∀ seg ∈ weightedBranch sections barWidth, 1 ≤ seg.width := by
  have hn : 0 < sections.length := List.length_pos.mpr h1
  unfold weightedBranch
  set totalTokens : Nat := (sections.map SecIn.tokens).sum with htt
  set raw : List ℚ :=
    sections.map fun s => ((s.tokens : ℚ) / (totalTokens : ℚ)) * barWidth with hraw
  set widths : List Int := raw.map fun w => max 1 ⌊w⌋ with hwidths
  have hrawlen : raw.length = sections.length := by simp [hraw]
  have hwlen : widths.length = sections.length := by simp [hwidths, hrawlen]
  have hwmin : ∀ w ∈ widths, 1 ≤ w := by
    intro w hw
    rw [hwidths] at hw
    obtain ⟨x, _, hx⟩ := List.mem_map.mp hw
    rw [← hx]
    exact le_max_left _ _
  have hwne : widths ≠ [] := by
    intro hc
    rw [hc] at hwlen
    simp at hwlen
    omega
  have hwsum : (sections.length : Int) ≤ widths.sum := by
    have := sum_ge_length widths hwmin
    rwa [hwlen] at this
  -- characterise the reconciled width list
  set widths2 :=
    if barWidth - widths.sum > 0 then
      distribLoop
        (((fracPairs widths 0 raw).insertionSort fracGE).map Prod.fst) 0
        (barWidth - widths.sum).toNat widths
    else if barWidth - widths.sum < 0 then stealLoop (-(barWidth - widths.sum)).toNat widths
    else widths with hw2
  have hw2facts : widths2.length = sections.length ∧
      widths2.sum = max barWidth (sections.length : Int) ∧
      ∀ w ∈ widths2, 1 ≤ w := by
    rw [hw2]
    by_cases hd1 : barWidth - widths.sum > 0
    · rw [if_pos hd1]
      set order := ((fracPairs widths 0 raw).insertionSort fracGE).map Prod.fst with ho
      have holen : order.length = sections.length := by
        simp [ho, List.length_insertionSort, fracPairs_length, hrawlen]
      have hone : order ≠ [] := by
        intro hc
        rw [hc] at holen
        simp at holen
        omega
      have hob : ∀ x ∈ order, x < sections.length := by
        intro x hx
        rw [ho] at hx
        obtain ⟨p, hp, hpx⟩ := List.mem_map.mp hx
        have hp2 : p ∈ fracPairs widths 0 raw :=
          (List.perm_insertionSort fracGE _).mem_iff.mp hp
        have := fracPairs_fst_lt widths raw 0 p hp2
        rw [hrawlen] at this
        omega
      obtain ⟨r1, r2, r3⟩ :=
        distribLoop_facts order sections.length hone hob
          (barWidth - widths.sum).toNat 0 widths hwlen hwmin
      refine ⟨r1, ?_, r3⟩
      rw [r2, Int.toNat_of_nonneg (by omega)]
      omega
    · rw [if_neg hd1]
      by_cases hd2 : barWidth - widths.sum < 0
      · rw [if_pos hd2]
        obtain ⟨r1, r2, r3⟩ :=
          stealLoop_facts (-(barWidth - widths.sum)).toNat widths hwne hwmin
        refine ⟨by rw [r1, hwlen], ?_, r3⟩
        rw [r2, Int.toNat_of_nonneg (by omega), hwlen]
        omega
      · rw [if_neg hd2]
        exact ⟨hwlen, by omega, hwmin⟩
  obtain ⟨f1, f2, f3⟩ := hw2facts
  constructor
  · rw [attachWidths_sum sections widths2 0 (by omega)]
    simpa using f2
  · exact attachWidths_min widths2 f3 sections 0 (by omega)

/-- C2: for every non-empty section list and every total width at least the
number of sections, `buildBarSegments` returns widths that sum to exactly
that total width and are each at least 1 — covering the all-zero-weights
even split as well as the weighted floor/minimum/reconcile path, including
termination of the largest-first steal loop. -/
theorem buildBarSegments_exact_cover (sections : List SecIn) (barWidth : Int)
    (h1 : sections ≠ []) (h2 : (sections.length : Int) ≤ barWidth) :
    ((buildBarSegments sections barWidth).map BarSegment.width).sum = barWidth ∧
    ∀ seg ∈ buildBarSegments sections barWidth, 1 ≤ seg.width := by
  have hn : 0 < sections.length := List.length_pos.mpr h1
  unfold buildBarSegments
  rw [if_neg (by omega)]
  show ((if (sections.map SecIn.tokens).sum = 0 then zeroBranch sections barWidth
      else weightedBranch sections barWidth).map BarSegment.width).sum = barWidth ∧
    ∀ seg ∈ (if (sections.map SecIn.tokens).sum = 0 then zeroBranch sections barWidth
      else weightedBranch sections barWidth), 1 ≤ seg.width
  by_cases h0 : (sections.map SecIn.tokens).sum = 0
  · rw [if_pos h0]
    exact zeroBranch_facts sections barWidth h1 h2
  · rw [if_neg h0]
    obtain ⟨r1, r2⟩ := weightedBranch_facts sections barWidth h1
    exact ⟨by rw [r1]; omega, r2⟩

theorem buildBarSegments_exact_cover_witness :
    (([⟨['a'], 3⟩, ⟨['b'], 1⟩] : List SecIn) ≠ [] ∧
      (([⟨['a'], 3⟩, ⟨['b'], 1⟩] : List SecIn).length : Int) ≤ 7) ∧
    ((buildBarSegments [⟨['a'], 3⟩, ⟨['b'], 1⟩] 7).map BarSegment.width).sum = 7 ∧
    ∀ seg ∈ buildBarSegments [⟨['a'], 3⟩, ⟨['b'], 1⟩] 7, 1 ≤ seg.width :=
  ⟨⟨by decide, by decide⟩,
    buildBarSegments_exact_cover [⟨['a'], 3⟩, ⟨['b'], 1⟩] 7 (by decide) (by decide)⟩

/-- C4 (counterexample): with two equal-weight sections and a positive total
width of 1 (smaller than the section count), the allocator's widths sum to
2, not to the requested total width, refuting the claim that the sum equals
`totalWidth` for every `totalWidth > 0`. -/
theorem buildBarSegments_narrow_cex :
    (([⟨['a'], 1⟩, ⟨['b'], 1⟩] : List SecIn) ≠ [] ∧ (0 : Int) < 1) ∧
    ((buildBarSegments [⟨['a'], 1⟩, ⟨['b'], 1⟩] 1).map BarSegment.width).sum = 2 ∧
    ¬ ((buildBarSegments [⟨['a'], 1⟩, ⟨['b'], 1⟩] 1).map BarSegment.width).sum = 1 := by
  decide

/-- C4 (amended): for any non-empty section list with positive total weight,
the widths sum to `max totalWidth (number of sections)` — equal to
`totalWidth` exactly when `totalWidth` is at least the section count — and
every width is at least 1.  (With all-zero weights and
`0 < totalWidth < count`, the even split instead sums to `totalWidth` but
hands out zero widths, so neither guarantee survives below the count.) -/
theorem buildBarSegments_pos_weight_sum (sections : List SecIn) (barWidth : Int)
    (h1 : sections ≠ []) (h0 : (sections.map SecIn.tokens).sum ≠ 0) :
    ((buildBarSegments sections barWidth).map BarSegment.width).sum
      = max barWidth (sections.length : Int) ∧
    ∀ seg ∈ buildBarSegments sections barWidth, 1 ≤ seg.width := by
  have hn : 0 < sections.length := List.length_pos.mpr h1
  unfold buildBarSegments
  rw [if_neg (by omega)]
  show ((if (sections.map SecIn.tokens).sum = 0 then zeroBranch sections barWidth
      else weightedBranch sections barWidth).map BarSegment.width).sum
      = max barWidth (sections.length : Int) ∧
    ∀ seg ∈ (if (sections.map SecIn.tokens).sum = 0 then zeroBranch sections barWidth
      else weightedBranch sections barWidth), 1 ≤ seg.width
  rw [if_neg h0]
  exact weightedBranch_facts sections barWidth h1

theorem buildBarSegments_pos_weight_sum_witness :
    (([⟨['a'], 1⟩, ⟨['b'], 1⟩] : List SecIn) ≠ [] ∧
      (([⟨['a'], 1⟩, ⟨['b'], 1⟩] : List SecIn).map SecIn.tokens).sum ≠ 0) ∧
    ((buildBarSegments [⟨['a'], 1⟩, ⟨['b'], 1⟩] 1).map BarSegment.width).sum
      = max 1 ((([⟨['a'], 1⟩, ⟨['b'], 1⟩] : List SecIn).length : Nat) : Int) ∧
    ∀ seg ∈ buildBarSegments [⟨['a'], 1⟩, ⟨['b'], 1⟩] 1, 1 ≤ seg.width :=
  ⟨⟨by decide, by decide⟩,
    buildBarSegments_pos_weight_sum [⟨['a'], 1⟩, ⟨['b'], 1⟩] 1 (by decide) (by decide)⟩

/-! ### Fuzzy-matcher lemmas -/

theorem listIndexOf_prefix_of_nonneg :
    ∀ (s pat : Str), 0 ≤ listIndexOf s pat →
      pat.isPrefixOf (s.drop (listIndexOf s pat).toNat) = true := by
  intro s
  induction s with
  | nil =>
    intro pat h
    unfold listIndexOf at h ⊢
    by_cases hp : pat.isPrefixOf ([] : Str)
    · simp [hp]
    · simp [hp] at h
  | cons c t ih =>
    intro pat h
    unfold listIndexOf at h ⊢
    by_cases hp : pat.isPrefixOf (c :: t)
    · simp [hp]
    · simp only [if_neg hp] at h ⊢
      by_cases hr : 0 ≤ listIndexOf t pat
      · simp only [if_pos hr] at h ⊢
        have := ih pat hr
        rw [show (listIndexOf t pat + 1).toNat = (listIndexOf t pat).toNat + 1 by omega]
        simpa using this
      · simp [if_neg hr] at h

theorem sublist_of_listIncludes (s pat : Str) (h : listIncludes s pat = true) :
    pat.Sublist s := by
  unfold listIncludes at h
  have h0 : 0 ≤ listIndexOf s pat := by
    by_contra hc
    simp [hc] at h
  have hpre := listIndexOf_prefix_of_nonneg s pat h0
  have hp : pat <+: s.drop (listIndexOf s pat).toNat :=
    List.isPrefixOf_iff_prefix.mp hpre
  exact hp.sublist.trans (List.drop_sublist _ s)

theorem fuzzyLoop_rest_empty_iff :
    ∀ (t q : Str) (s b : Nat), (fuzzyLoop t q s b).2 = [] ↔ q.Sublist t := by
  intro t
  induction t with
  | nil =>
    intro q s b
    cases q with
    | nil => simp [fuzzyLoop]
    | cons x qs => simp [fuzzyLoop]
  | cons c ts ih =>
    intro q s b
    cases q with
    | nil => simp [fuzzyLoop]
    | cons x qs =>
      show ((if c = x then fuzzyLoop ts qs (s + 10 + b) (b + 5)
          else fuzzyLoop ts (x :: qs) s 0).2 = []) ↔ _
      by_cases hc : c = x
      · subst hc
        rw [if_pos rfl, ih qs, List.cons_sublist_cons]
      · rw [if_neg hc, ih (x :: qs)]
        constructor
        · intro h; exact h.cons c
        · intro h
          cases h with
          | cons _ h => exact h
          | cons₂ _ h => exact absurd rfl hc

theorem fuzzyLoop_score_mono :
    ∀ (t q : Str) (s b : Nat), s ≤ (fuzzyLoop t q s b).1 := by
  intro t
  induction t with
  | nil => intro q s b; cases q <;> simp [fuzzyLoop]
  | cons c ts ih =>
    intro q s b
    cases q with
    | nil => simp [fuzzyLoop]
    | cons x qs =>
      show s ≤ (if c = x then fuzzyLoop ts qs (s + 10 + b) (b + 5)
          else fuzzyLoop ts (x :: qs) s 0).1
      by_cases hc : c = x
      · rw [if_pos hc]
        have := ih qs (s + 10 + b) (b + 5)
        omega
      · rw [if_neg hc]
        exact ih (x :: qs) s 0

theorem fuzzyLoop_score_pos :
    ∀ (t q : Str) (s b : Nat), q ≠ [] → (fuzzyLoop t q s b).2 = [] →
      s + 10 ≤ (fuzzyLoop t q s b).1 := by
  intro t
  induction t with
  | nil =>
    intro q s b hq hrest
    cases q with
    | nil => exact absurd rfl hq
    | cons x qs => simp [fuzzyLoop] at hrest
  | cons c ts ih =>
    intro q s b hq hrest
    cases q with
    | nil => exact absurd rfl hq
    | cons x qs =>
      show s + 10 ≤ (if c = x then fuzzyLoop ts qs (s + 10 + b) (b + 5)
          else fuzzyLoop ts (x :: qs) s 0).1
      rw [show fuzzyLoop (c :: ts) (x :: qs) s b
          = (if c = x then fuzzyLoop ts qs (s + 10 + b) (b + 5)
            else fuzzyLoop ts (x :: qs) s 0) from rfl] at hrest
      by_cases hc : c = x
      · rw [if_pos hc]
        have := fuzzyLoop_score_mono ts qs (s + 10 + b) (b + 5)
        omega
      · rw [if_neg hc] at hrest ⊢
        exact ih (x :: qs) s 0 hq hrest

theorem fuzzyScore_pos_iff (query text : Str) (hq : query.map Char.toLower ≠ []) :
    0 < fuzzyScore query text ↔
      (query.map Char.toLower).Sublist (text.map Char.toLower) := by
  unfold fuzzyScore
  by_cases hinf : listIncludes (text.map Char.toLower) (query.map Char.toLower)
  · rw [if_pos hinf]
    have hsub := sublist_of_listIncludes _ _ hinf
    have hnn : (0 : ℚ) ≤
        ((query.map Char.toLower).length : ℚ) / ((text.map Char.toLower).length : ℚ) * 50 := by
      positivity
    exact ⟨fun _ => hsub, fun _ => by linarith⟩
  · rw [if_neg hinf]
    by_cases hrest : (fuzzyLoop (text.map Char.toLower) (query.map Char.toLower) 0 0).2.isEmpty
    · rw [if_pos hrest]
      have hrest2 := List.isEmpty_iff.mp hrest
      have hsub := (fuzzyLoop_rest_empty_iff _ _ 0 0).mp hrest2
      have hpos := fuzzyLoop_score_pos _ _ 0 0 hq hrest2
      constructor
      · intro _; exact hsub
      · intro _
        have : (10 : ℚ) ≤
            ((fuzzyLoop (text.map Char.toLower) (query.map Char.toLower) 0 0).1 : ℚ) := by
          exact_mod_cast hpos
        linarith
    · rw [if_neg hrest]
      have hrest2 : (fuzzyLoop (text.map Char.toLower) (query.map Char.toLower) 0 0).2 ≠ [] := by
        intro hc
        exact hrest (List.isEmpty_iff.mpr hc)
      have hnsub := (not_iff_not.mpr (fuzzyLoop_rest_empty_iff _ _ 0 0)).mp hrest2
      exact ⟨fun h => absurd h (lt_irrefl 0), fun h => absurd h hnsub⟩

theorem map_pair_filter {α : Type*} (f : α → ℚ) (p : ℚ → Bool) (items : List α) :
    ((items.map fun it => (it, f it)).filter fun e => p e.2)
      = (items.filter fun it => p (f it)).map fun it => (it, f it) := by
  induction items with
  | nil => rfl
  | cons a t ih =>
    simp only [List.map_cons, List.filter_cons]
    cases hp : p (f a) <;> simp [hp, ih]

theorem filter_map_fst {α : Type*} (f : α → ℚ) (p : ℚ → Bool) :
    ∀ (l : List (α × ℚ)), (∀ x ∈ l, x.2 = f x.1) →
      (l.map Prod.fst).filter (fun it => p (f it))
        = (l.filter fun e => p e.2).map Prod.fst := by
  intro l
  induction l with
  | nil => intro _; rfl
  | cons x t ih =>
    intro h
    have hx := h x (List.mem_cons_self x t)
    have ht := ih fun y hy => h y (List.mem_cons_of_mem x hy)
    simp only [List.map_cons, List.filter_cons, ← hx]
    cases hp : p x.2 <;> simp [hp, ht]

theorem pairwise_filter_of {α : Type*} (p : α → Bool) (R : α → α → Prop)
    (h : ∀ a b, p a = true → p b = true → R a b) :
    ∀ l : List α, (l.filter p).Pairwise R := by
  intro l
  induction l with
  | nil => simp
  | cons a t ih =>
    rw [List.filter_cons]
    by_cases hp : p a = true
    · rw [if_pos hp, List.pairwise_cons]
      exact ⟨fun b hb => h a b hp (List.of_mem_filter hb), ih⟩
    · rw [if_neg hp]
      exact ih

/-- C7: on any item list, `fuzzyFilter` with an empty or whitespace-only
query returns all items unchanged in their original order; with any other
query it keeps an item exactly when the query is a case-insensitive
subsequence of its label (score-0 items are excluded), and the survivors
are sorted by descending score, stably for ties (items of any fixed score
keep their original relative order). -/
theorem fuzzyFilter_spec {α : Type*} (label : α → Str) (items : List α) (query : Str) :
    ((trimStr query).isEmpty = true → fuzzyFilter label items query = items) ∧
    ((trimStr query).isEmpty = false →
      (fuzzyFilter label items query).Perm
          (items.filter fun it => decide (0 < fuzzyScore query (label it))) ∧
      (∀ it : α, 0 < fuzzyScore query (label it) ↔
        (query.map Char.toLower).Sublist ((label it).map Char.toLower)) ∧
      (fuzzyFilter label items query).Pairwise
        (fun a b => fuzzyScore query (label b) ≤ fuzzyScore query (label a)) ∧
      ∀ c : ℚ,
        (fuzzyFilter label items query).filter
            (fun it => decide (fuzzyScore query (label it) = c))
          = ((items.filter fun it => decide (0 < fuzzyScore query (label it))).filter
            fun it => decide (fuzzyScore query (label it) = c))) := by
  constructor
  · intro h
    unfold fuzzyFilter
    rw [if_pos h]
  · intro h
    have hqne : query ≠ [] := by
      intro hc
      subst hc
      simp [trimStr, jsIsWs] at h
    have hlq : query.map Char.toLower ≠ [] := by
      simpa using hqne
    have hres : fuzzyFilter label items query
        = (((items.map fun it => (it, fuzzyScore query (label it))).filter
            fun e => decide (0 < e.2)).insertionSort scoreGE).map Prod.fst := by
      unfold fuzzyFilter
      rw [if_neg (by simp [h])]
    set filtered := ((items.map fun it => (it, fuzzyScore query (label it))).filter
        fun e => decide (0 < e.2)) with hfilteredEq
    have hfilter : filtered
        = (items.filter fun it => decide (0 < fuzzyScore query (label it))).map
          (fun it => (it, fuzzyScore query (label it))) :=
      map_pair_filter (fun it => fuzzyScore query (label it)) (fun q => decide (0 < q)) items
    have hperm : (filtered.insertionSort scoreGE).Perm filtered :=
      List.perm_insertionSort scoreGE filtered
    have hinv : ∀ x ∈ filtered.insertionSort scoreGE,
        x.2 = fuzzyScore query (label x.1) := by
      intro x hx
      have hx2 : x ∈ filtered := hperm.mem_iff.mp hx
      rw [hfilter] at hx2
      obtain ⟨y, _, hy⟩ := List.mem_map.mp hx2
      rw [← hy]
    refine ⟨?_, fun it => fuzzyScore_pos_iff query (label it) hlq, ?_, ?_⟩
    · -- permutation with the filtered list
      have h1 : ((filtered.insertionSort scoreGE).map Prod.fst).Perm
          (filtered.map Prod.fst) := hperm.map Prod.fst
      have h2 : filtered.map Prod.fst
          = items.filter fun it => decide (0 < fuzzyScore query (label it)) := by
        rw [hfilter, List.map_map,
          show (Prod.fst ∘ fun it : α => (it, fuzzyScore query (label it))) = id from rfl,
          List.map_id]
      rw [h2] at h1
      rw [hres]
      exact h1
    · -- sorted by descending score
      rw [hres]
      rw [List.pairwise_map]
      have hsorted : (filtered.insertionSort scoreGE).Pairwise scoreGE :=
        List.sorted_insertionSort scoreGE filtered
      exact hsorted.imp_of_mem fun {a b} ha hb hab => by
        have ha2 := hinv a ha
        have hb2 := hinv b hb
        unfold scoreGE at hab
        rw [ha2, hb2] at hab
        exact hab
    · -- stability: elements of any fixed score keep their original order
      intro c
      have hc'pw : (filtered.filter fun e => decide (e.2 = c)).Pairwise scoreGE :=
        pairwise_filter_of _ _ (by
          intro a b ha hb
          have ha2 := of_decide_eq_true ha
          have hb2 := of_decide_eq_true hb
          unfold scoreGE
          rw [ha2, hb2]) filtered
      have hc'sub : (filtered.filter fun e => decide (e.2 = c)).Sublist filtered :=
        List.filter_sublist filtered
      have hstable := List.sublist_insertionSort hc'pw hc'sub
      have hsubfilter : (filtered.filter fun e => decide (e.2 = c)).Sublist
          ((filtered.insertionSort scoreGE).filter fun e => decide (e.2 = c)) := by
        have hidem : (filtered.filter fun e => decide (e.2 = c)).filter
            (fun e => decide (e.2 = c)) = filtered.filter fun e => decide (e.2 = c) :=
          List.filter_eq_self.mpr (by
            intro a ha
            exact (List.mem_filter.mp ha).2)
        have h3 := hstable.filter (fun e => decide (e.2 = c))
        rwa [hidem] at h3
      have hpermfilter : ((filtered.insertionSort scoreGE).filter
          fun e => decide (e.2 = c)).Perm (filtered.filter fun e => decide (e.2 = c)) :=
        hperm.filter _
      have heq : (filtered.insertionSort scoreGE).filter (fun e => decide (e.2 = c))
          = filtered.filter fun e => decide (e.2 = c) :=
        (hsubfilter.eq_of_length hpermfilter.length_eq.symm).symm
      rw [hres]
      rw [filter_map_fst (fun it => fuzzyScore query (label it)) (fun q => decide (q = c))
        (filtered.insertionSort scoreGE) hinv]
      rw [heq, hfilter, map_pair_filter (fun it => fuzzyScore query (label it))
        (fun q => decide (q = c)), List.map_map,
        show (Prod.fst ∘ fun it : α => (it, fuzzyScore query (label it))) = id from rfl,
        List.map_id]

theorem fuzzyFilter_spec_witness :
    ((trimStr [' ']).isEmpty = true ∧
      fuzzyFilter (fun s : Str => s) ["ab".data, "b".data] [' '] = ["ab".data, "b".data]) ∧
    ((trimStr ("b".data)).isEmpty = false ∧
      (fuzzyFilter (fun s : Str => s) ["ab".data, "b".data] ("b".data)).Perm
        (["ab".data, "b".data].filter fun it => decide (0 < fuzzyScore ("b".data) it))) :=
  ⟨⟨by decide, (fuzzyFilter_spec (fun s : Str => s) ["ab".data, "b".data] [' ']).1 (by decide)⟩,
    ⟨by decide,
      ((fuzzyFilter_spec (fun s : Str => s) ["ab".data, "b".data] ("b".data)).2 (by decide)).1⟩⟩

/-! ## `src/types.ts` — data model -/

/-- A `{label, chars, tokens}` child entry of a `PromptSection`. -/
structure PromptChild where
  label : Str
  chars : Nat
  tokens : Nat
  deriving DecidableEq, Repr

/-- `PromptSection` of `types.ts` (`children` optional). -/
structure PromptSection where
  label : Str
  chars : Nat
  tokens : Nat
  children : Option (List PromptChild) := none
  deriving DecidableEq, Repr

/-- `SkillEntry` of `types.ts`. -/
structure SkillEntry where
  name : Str
  description : Str
  location : Str
  chars : Nat
  tokens : Nat
  deriving DecidableEq, Repr

/-- `ParsedPrompt` of `types.ts`. -/
structure ParsedPrompt where
  sections : List PromptSection
  totalChars : Nat
  totalTokens : Nat
  skills : List SkillEntry
  deriving DecidableEq, Repr

/-- `TableItem` of `types.ts`: display item with optional child items. -/
inductive TableItem where
  | mk (label : Str) (tokens : Nat) (chars : Nat) (pct : ℚ) (drillable : Bool)
      (children : Option (List TableItem))
  deriving Repr

def TableItem.label : TableItem → Str
  | .mk l _ _ _ _ _ => l

def TableItem.tokens : TableItem → Nat
  | .mk _ t _ _ _ _ => t

def TableItem.chars : TableItem → Nat
  | .mk _ _ c _ _ _ => c

def TableItem.pct : TableItem → ℚ
  | .mk _ _ _ p _ _ => p

def TableItem.drillable : TableItem → Bool
  | .mk _ _ _ _ d _ => d

def TableItem.children : TableItem → Option (List TableItem)
  | .mk _ _ _ _ _ ch => ch

/-! ## `src/report-view.ts` — table projector -/

/-- The descending-tokens preorder of `toSorted((a, b) => b.tokens - a.tokens)`. -/
def tokGE (a b : TableItem) : Prop := b.tokens ≤ a.tokens

instance : DecidableRel tokGE := fun a b => inferInstanceAs (Decidable (b.tokens ≤ a.tokens))

instance : IsTotal TableItem tokGE := ⟨fun a b => le_total b.tokens a.tokens⟩

instance : IsTrans TableItem tokGE := ⟨fun _ _ _ h1 h2 => le_trans h2 h1⟩

/-- Child conversion inside `buildTableItems` (`report-view.ts` lines
108–119): percentage against the grand total, never drillable, no
children of its own. -/
def childToItem (totalTokens : Nat) (c : PromptChild) : TableItem :=
  .mk c.label c.tokens c.chars
    (if totalTokens > 0 then (c.tokens : ℚ) / (totalTokens : ℚ) * 100 else 0)
    false none

/-- Section conversion inside `buildTableItems` (`report-view.ts` lines
100–131): `children` is defined only when the section has a non-empty
child list (`section.children?.length ? … : undefined`), and
`drillable = (children?.length ?? 0) > 0`. -/
def sectionToItem (totalTokens : Nat) (s : PromptSection) : TableItem :=
  let pct : ℚ := if totalTokens > 0 then (s.tokens : ℚ) / (totalTokens : ℚ) * 100 else 0
  let children : Option (List TableItem) :=
    match s.children with
    | some cs =>
      if cs.length ≠ 0 then some ((cs.map (childToItem totalTokens)).insertionSort tokGE)
      else none
    | none => none
  .mk s.label s.tokens s.chars pct (decide ((children.map List.length).getD 0 > 0)) children

/-- `buildTableItems` (`report-view.ts` lines 98–133). -/
def buildTableItems (parsed : ParsedPrompt) : List TableItem :=
  (parsed.sections.map (sectionToItem parsed.totalTokens)).insertionSort tokGE

theorem sectionToItem_eq_none (T : Nat) (s : PromptSection) (h : s.children = none) :
    sectionToItem T s
      = .mk s.label s.tokens s.chars
          (if T > 0 then (s.tokens : ℚ) / (T : ℚ) * 100 else 0) false none := by
  unfold sectionToItem
  rw [h]
  rfl

theorem sectionToItem_eq_zero (T : Nat) (s : PromptSection) (cs0 : List PromptChild)
    (h : s.children = some cs0) (hlen : cs0.length = 0) :
    sectionToItem T s
      = .mk s.label s.tokens s.chars
          (if T > 0 then (s.tokens : ℚ) / (T : ℚ) * 100 else 0) false none := by
  unfold sectionToItem
  rw [h]
  dsimp only
  rw [if_neg (show ¬(cs0.length ≠ 0) from by omega)]
  rfl

theorem sectionToItem_eq_some (T : Nat) (s : PromptSection) (cs0 : List PromptChild)
    (h : s.children = some cs0) (hlen : cs0.length ≠ 0) :
    sectionToItem T s
      = .mk s.label s.tokens s.chars
          (if T > 0 then (s.tokens : ℚ) / (T : ℚ) * 100 else 0) true
          (some ((cs0.map (childToItem T)).insertionSort tokGE)) := by
  unfold sectionToItem
  rw [h]
  dsimp only
  rw [if_pos hlen]
  congr 1
  simp [Nat.pos_of_ne_zero hlen]

/-- C6: `buildTableItems` produces top-level items sorted by tokens
descending; every item's `pct` is `tokens/totalTokens*100` when the grand
total is positive and `0` otherwise; an item is drillable exactly when its
children list is present and non-empty; and each children list is itself
sorted by tokens descending with every child's `pct` computed against the
grand total, never the parent's subtotal. -/
theorem buildTableItems_spec (parsed : ParsedPrompt) :
    (buildTableItems parsed).Pairwise (fun a b => b.tokens ≤ a.tokens) ∧
    ∀ it ∈ buildTableItems parsed,
      (it.pct = if parsed.totalTokens > 0
        then (it.tokens : ℚ) / (parsed.totalTokens : ℚ) * 100 else 0) ∧
      (it.drillable = true ↔ ∃ cs, it.children = some cs ∧ cs ≠ []) ∧
      ∀ cs, it.children = some cs →
        cs.Pairwise (fun a b => b.tokens ≤ a.tokens) ∧
        ∀ c ∈ cs, c.pct = if parsed.totalTokens > 0
          then (c.tokens : ℚ) / (parsed.totalTokens : ℚ) * 100 else 0 := by
  constructor
  · exact List.sorted_insertionSort tokGE _
  · intro it hit
    have hmem : it ∈ parsed.sections.map (sectionToItem parsed.totalTokens) :=
      (List.perm_insertionSort tokGE _).mem_iff.mp hit
    obtain ⟨s, _, hs⟩ := List.mem_map.mp hmem
    have hleaf : ∀ hit2 : sectionToItem parsed.totalTokens s
        = TableItem.mk s.label s.tokens s.chars
          (if parsed.totalTokens > 0
            then (s.tokens : ℚ) / (parsed.totalTokens : ℚ) * 100 else 0) false none,
        (it.pct = if parsed.totalTokens > 0
          then (it.tokens : ℚ) / (parsed.totalTokens : ℚ) * 100 else 0) ∧
        (it.drillable = true ↔ ∃ cs, it.children = some cs ∧ cs ≠ []) ∧
        ∀ cs, it.children = some cs →
          cs.Pairwise (fun a b => b.tokens ≤ a.tokens) ∧
          ∀ c ∈ cs, c.pct = if parsed.totalTokens > 0
            then (c.tokens : ℚ) / (parsed.totalTokens : ℚ) * 100 else 0 := by
      intro hit2
      rw [← hs, hit2]
      refine ⟨rfl, by simp [TableItem.drillable, TableItem.children], ?_⟩
      intro cs hcs
      simp [TableItem.children] at hcs
    cases hch : s.children with
    | none => exact hleaf (sectionToItem_eq_none _ s hch)
    | some cs0 =>
      by_cases hlen : cs0.length = 0
      · exact hleaf (sectionToItem_eq_zero _ s cs0 hch hlen)
      · have hit2 := sectionToItem_eq_some parsed.totalTokens s cs0 hch hlen
        rw [← hs, hit2]
        refine ⟨rfl, ?_, ?_⟩
        · simp only [TableItem.drillable, TableItem.children]
          constructor
          · intro _
            refine ⟨(cs0.map (childToItem parsed.totalTokens)).insertionSort tokGE, rfl, ?_⟩
            intro hc
            have hlc := congrArg List.length hc
            rw [List.length_insertionSort, List.length_map] at hlc
            exact hlen (by simpa using hlc)
          · intro _
            trivial
        · intro cs hcs
          simp only [TableItem.children, Option.some_inj] at hcs
          subst hcs
          constructor
          · exact List.sorted_insertionSort tokGE _
          · intro c hc
            have hmem2 : c ∈ cs0.map (childToItem parsed.totalTokens) :=
              (List.perm_insertionSort tokGE _).mem_iff.mp hc
            obtain ⟨c0, _, hc0⟩ := List.mem_map.mp hmem2
            subst hc0
            rfl

/-- A small concrete `ParsedPrompt` used to instantiate the projector and
overlay theorems. -/
def demoParsed : ParsedPrompt :=
  { sections :=
      [⟨"A".data, 1, 10, some [⟨"x".data, 1, 2⟩, ⟨"y".data, 1, 4⟩]⟩,
        ⟨"B".data, 2, 20, none⟩],
    totalChars := 30, totalTokens := 30, skills := [] }

theorem buildTableItems_spec_witness :
    (buildTableItems demoParsed).Pairwise (fun a b => b.tokens ≤ a.tokens) ∧
    ((sectionToItem 30 ⟨"B".data, 2, 20, none⟩).pct
      = if demoParsed.totalTokens > 0
        then ((sectionToItem 30 ⟨"B".data, 2, 20, none⟩).tokens : ℚ)
          / (demoParsed.totalTokens : ℚ) * 100 else 0) :=
  ⟨(buildTableItems_spec demoParsed).1,
    ((buildTableItems_spec demoParsed).2 (sectionToItem 30 ⟨"B".data, 2, 20, none⟩)
      (List.mem_cons_self _ _)).1⟩

/-! ## `src/report-view.ts` — BudgetOverlay state machine -/

/-- `MAX_VISIBLE_ROWS` (`report-view.ts` line 15). -/
def MAX_VISIBLE_ROWS : Int := 8

/-- The overlay's `Mode` (`"sections" | "drilldown"`). -/
inductive Mode where
  | sections
  | drilldown
  deriving DecidableEq, Repr

/-- `OverlayState` of `report-view.ts` lines 272–289. -/
structure OverlayState where
  mode : Mode
  selectedIndex : Int
  scrollOffset : Int
  searchActive : Bool
  searchQuery : Str
  drilldownSection : Option TableItem
  deriving Repr

/-- A decoded keyboard event, as classified by the host's `matchesKey`
plus the literal-character fallthrough. -/
inductive Key where
  | escape
  | up
  | down
  | enter
  | backspace
  | char (c : Char)
  deriving DecidableEq, Repr

/-- `array[i]` for a possibly out-of-range (or negative) JS index. -/
def jsIndex {α : Type*} (l : List α) (i : Int) : Option α :=
  if i < 0 then none else l.get? i.toNat

/-- `BudgetOverlay.getVisibleItems` (`report-view.ts` lines 438–449). -/
def getVisibleItems (items : List TableItem) (s : OverlayState) : List TableItem :=
  let baseItems :=
    if s.mode = Mode.drilldown then
      match s.drilldownSection with
      | some it => it.children.getD []
      | none => []
    else items
  if s.searchActive = true ∧ s.searchQuery ≠ [] then
    fuzzyFilter TableItem.label baseItems s.searchQuery
  else baseItems

/-- `BudgetOverlay.moveSelection` (`report-view.ts` lines 394–417):
circular wrap, then window adjustment. -/
def moveSelection (items : List TableItem) (s : OverlayState) (delta : Int) :
    OverlayState :=
  let vis := getVisibleItems items s
  if vis.length = 0 then s
  else
    let next0 := s.selectedIndex + delta
    let next1 := if next0 < 0 then (vis.length : Int) - 1 else next0
    let next := if next1 ≥ (vis.length : Int) then 0 else next1
    let s1 := { s with selectedIndex := next }
    if next < s1.scrollOffset then { s1 with scrollOffset := next }
    else if next ≥ s1.scrollOffset + MAX_VISIBLE_ROWS then
      { s1 with scrollOffset := next - MAX_VISIBLE_ROWS + 1 }
    else s1

/-- `BudgetOverlay.drillIn` (`report-view.ts` lines 419–436). -/
def drillIn (items : List TableItem) (s : OverlayState) : OverlayState :=
  if s.mode ≠ Mode.sections then s
  else
    match jsIndex (getVisibleItems items s) s.selectedIndex with
    | none => s
    | some selected =>
      if selected.drillable = true then
        { mode := Mode.drilldown, selectedIndex := 0, scrollOffset := 0,
          searchActive := false, searchQuery := [], drilldownSection := some selected }
      else s

/-- `BudgetOverlay.handleSearchInput` (`report-view.ts` lines 355–392);
Enter is not handled there and falls through as a no-op (its code point 13
is below the printable threshold 32). -/
def handleSearchInput (items : List TableItem) (s : OverlayState) (k : Key) :
    OverlayState :=
  match k with
  | .escape =>
    { s with searchActive := false, searchQuery := [], selectedIndex := 0, scrollOffset := 0 }
  | .up => moveSelection items s (-1)
  | .down => moveSelection items s 1
  | .backspace =>
    if s.searchQuery.length > 0 then
      { s with searchQuery := s.searchQuery.dropLast, selectedIndex := 0, scrollOffset := 0 }
    else s
  | .char c =>
    if 32 ≤ c.toNat then
      { s with searchQuery := s.searchQuery ++ [c], selectedIndex := 0, scrollOffset := 0 }
    else s
  | .enter => s

/-- `BudgetOverlay.handleInput` (`report-view.ts` lines 314–353).  Escape
in sections mode signals `done(null)` to the host and leaves the state
itself unchanged. -/
def handleInput (items : List TableItem) (s : OverlayState) (k : Key) :
    OverlayState :=
  if s.searchActive = true then handleSearchInput items s k
  else
    match k with
    | .escape =>
      if s.mode = Mode.drilldown then
        { s with
            mode := Mode.sections
            drilldownSection := none
            selectedIndex := 0
            scrollOffset := 0 }
      else s
    | .up => moveSelection items s (-1)
    | .down => moveSelection items s 1
    | .enter => drillIn items s
    | .char c =>
      if c = '/' then { s with searchActive := true, searchQuery := [] } else s
    | .backspace => s

/-- The state a freshly constructed overlay starts in
(`report-view.ts` lines 282–289). -/
def initState : OverlayState :=
  { mode := Mode.sections, selectedIndex := 0, scrollOffset := 0,
    searchActive := false, searchQuery := [], drilldownSection := none }

/-- Run a sequence of key events from the initial overlay state. -/
def runKeys (items : List TableItem) (ks : List Key) : OverlayState :=
  ks.foldl (handleInput items) initState

/-- The C10 window invariant: the selected row lies inside the visible
window. -/
def SelectionVisible (s : OverlayState) : Prop :=
  0 ≤ s.scrollOffset ∧ s.scrollOffset ≤ s.selectedIndex ∧
    s.selectedIndex < s.scrollOffset + MAX_VISIBLE_ROWS

theorem moveSelection_preserves (items : List TableItem) (s : OverlayState)
    (delta : Int) (h : SelectionVisible s) :
    SelectionVisible (moveSelection items s delta) := by
  obtain ⟨h1, h2, h3⟩ := h
  unfold moveSelection
  by_cases hvis : (getVisibleItems items s).length = 0
  · rw [if_pos hvis]
    exact ⟨h1, h2, h3⟩
  · rw [if_neg hvis]
    have hlen : 1 ≤ ((getVisibleItems items s).length : Int) := by
      have : 0 < (getVisibleItems items s).length := Nat.pos_of_ne_zero hvis
      exact_mod_cast this
    unfold SelectionVisible MAX_VISIBLE_ROWS at *
    dsimp only
    split_ifs <;> simp_all <;> omega

theorem handleSearchInput_preserves (items : List TableItem) (s : OverlayState)
    (k : Key) (h : SelectionVisible s) :
    SelectionVisible (handleSearchInput items s k) := by
  obtain ⟨h1, h2, h3⟩ := h
  cases k with
  | escape =>
    refine ⟨?_, ?_, ?_⟩ <;> simp [handleSearchInput, MAX_VISIBLE_ROWS]
  | up => exact moveSelection_preserves items s (-1) ⟨h1, h2, h3⟩
  | down => exact moveSelection_preserves items s 1 ⟨h1, h2, h3⟩
  | backspace =>
    simp only [handleSearchInput]
    split_ifs
    · refine ⟨?_, ?_, ?_⟩ <;> simp [MAX_VISIBLE_ROWS]
    · exact ⟨h1, h2, h3⟩
  | enter => exact ⟨h1, h2, h3⟩
  | char c =>
    simp only [handleSearchInput]
    split_ifs
    · refine ⟨?_, ?_, ?_⟩ <;> simp [MAX_VISIBLE_ROWS]
    · exact ⟨h1, h2, h3⟩

theorem handleInput_preserves (items : List TableItem) (s : OverlayState)
    (k : Key) (h : SelectionVisible s) :
    SelectionVisible (handleInput items s k) := by
  obtain ⟨h1, h2, h3⟩ := h
  unfold handleInput
  by_cases hsearch : s.searchActive = true
  · rw [if_pos hsearch]
    exact handleSearchInput_preserves items s k ⟨h1, h2, h3⟩
  · rw [if_neg hsearch]
    cases k with
    | escape =>
      dsimp only
      split_ifs
      · refine ⟨?_, ?_, ?_⟩ <;> simp [MAX_VISIBLE_ROWS]
      · exact ⟨h1, h2, h3⟩
    | up => exact moveSelection_preserves items s (-1) ⟨h1, h2, h3⟩
    | down => exact moveSelection_preserves items s 1 ⟨h1, h2, h3⟩
    | enter =>
      show SelectionVisible (drillIn items s)
      unfold drillIn
      split_ifs
      · exact ⟨h1, h2, h3⟩
      · cases hidx : jsIndex (getVisibleItems items s) s.selectedIndex with
        | none => exact ⟨h1, h2, h3⟩
        | some selected =>
          dsimp only
          split_ifs
          · refine ⟨?_, ?_, ?_⟩ <;> simp [MAX_VISIBLE_ROWS]
          · exact ⟨h1, h2, h3⟩
    | backspace => exact ⟨h1, h2, h3⟩
    | char c =>
      dsimp only
      split_ifs
      · exact ⟨h1, h2, h3⟩
      · exact ⟨h1, h2, h3⟩

/-- C10: starting from the initial overlay state, any sequence of key
events leaves the state with
`0 ≤ scrollOffset ≤ selectedIndex < scrollOffset + MAX_VISIBLE_ROWS`, so
the selected row is always inside the visible window. -/
theorem runKeys_selection_visible (items : List TableItem) (ks : List Key) :
    0 ≤ (runKeys items ks).scrollOffset ∧
    (runKeys items ks).scrollOffset ≤ (runKeys items ks).selectedIndex ∧
    (runKeys items ks).selectedIndex
      < (runKeys items ks).scrollOffset + MAX_VISIBLE_ROWS := by
  have main : ∀ (ks : List Key) (s : OverlayState), SelectionVisible s →
      SelectionVisible (ks.foldl (handleInput items) s) := by
    intro ks
    induction ks with
    | nil => intro s h; exact h
    | cons k t ih =>
      intro s h
      exact ih (handleInput items s k) (handleInput_preserves items s k h)
  exact main ks initState ⟨by simp [initState], by simp [initState],
    by simp [initState, MAX_VISIBLE_ROWS]⟩

/-- A drillable demo item (one child). -/
def demoDrillItem : TableItem :=
  .mk ("A".data) 5 5 0 true (some [.mk ("x".data) 1 1 0 false none])

/-- A non-drillable demo item. -/
def demoLeafItem : TableItem :=
  .mk ("B".data) 3 3 0 false none

/-- Demo item list for the overlay theorems. -/
def demoItems : List TableItem := [demoDrillItem, demoLeafItem]

/-- C3 (amended): in sections mode with search not active, Enter on a
drillable selected item transitions to drilldown mode, records the item as
`drilldownSection`, resets `selectedIndex` and `scrollOffset` to 0 and
clears the search fields, while Enter on a non-drillable selected item
leaves the state unchanged; when search is active, Enter is ignored
outright, so the drill-in transition never fires during search. -/
theorem enter_transition (items : List TableItem) (s : OverlayState) :
    (s.searchActive = true → handleInput items s Key.enter = s) ∧
    (s.searchActive = false → s.mode = Mode.sections → 0 ≤ s.selectedIndex →
      ∀ it, (getVisibleItems items s).get? s.selectedIndex.toNat = some it →
        handleInput items s Key.enter =
          if it.drillable = true then
            { mode := Mode.drilldown, selectedIndex := 0, scrollOffset := 0,
              searchActive := false, searchQuery := [], drilldownSection := some it }
          else s) := by
  constructor
  · intro h
    unfold handleInput
    rw [if_pos h]
    rfl
  · intro h1 h2 h3 it h4
    unfold handleInput
    rw [if_neg (by simp [h1])]
    show drillIn items s = _
    unfold drillIn
    rw [if_neg (by simp [h2])]
    rw [show jsIndex (getVisibleItems items s) s.selectedIndex = some it from by
      unfold jsIndex
      rw [if_neg (by omega)]
      exact h4]

theorem enter_transition_witness :
    (({ initState with searchActive := true } : OverlayState).searchActive = true ∧
      handleInput [demoDrillItem] { initState with searchActive := true } Key.enter
        = { initState with searchActive := true }) ∧
    (initState.searchActive = false ∧ initState.mode = Mode.sections ∧
      (0 : Int) ≤ initState.selectedIndex ∧
      (getVisibleItems [demoDrillItem] initState).get? 0 = some demoDrillItem ∧
      handleInput [demoDrillItem] initState Key.enter =
        if demoDrillItem.drillable = true then
          { mode := Mode.drilldown, selectedIndex := 0, scrollOffset := 0,
            searchActive := false, searchQuery := [], drilldownSection := some demoDrillItem }
        else initState) :=
  ⟨⟨rfl, (enter_transition [demoDrillItem] { initState with searchActive := true }).1 rfl⟩,
    ⟨rfl, rfl, by decide, rfl,
      (enter_transition [demoDrillItem] initState).2 rfl rfl (by decide) demoDrillItem rfl⟩⟩

/-- C3 (counterexample): from the initial state, pressing `/` activates
search with a drillable item selected; pressing Enter then leaves the
overlay in sections mode with no drilldown section recorded — the drill-in
does not fire while search is active, refuting the claim that the
transition fires whether or not search is active. -/
theorem enter_during_search_cex :
    (runKeys [demoDrillItem] [Key.char '/']).mode = Mode.sections ∧
    (runKeys [demoDrillItem] [Key.char '/']).searchActive = true ∧
    (runKeys [demoDrillItem] [Key.char '/']).selectedIndex = 0 ∧
    ((getVisibleItems [demoDrillItem] (runKeys [demoDrillItem] [Key.char '/'])).get? 0).map
        TableItem.drillable = some true ∧
    (runKeys [demoDrillItem] [Key.char '/', Key.enter]).mode = Mode.sections ∧
    (runKeys [demoDrillItem] [Key.char '/', Key.enter]).drilldownSection.isNone = true := by
  exact ⟨rfl, rfl, rfl, rfl, rfl, rfl⟩

/-- C5 (amended): pressing `/` when search is not active activates search
and clears the query, but leaves every other field — in particular
`selectedIndex` and `scrollOffset` — unchanged; this holds in both
sections mode and drilldown mode. -/
theorem slash_activates_search (items : List TableItem) (s : OverlayState)
    (h : s.searchActive = false) :
    handleInput items s (Key.char '/')
      = { s with searchActive := true, searchQuery := [] } := by
  unfold handleInput
  rw [if_neg (by simp [h])]
  rfl

theorem slash_activates_search_witness :
    initState.searchActive = false ∧
    handleInput demoItems initState (Key.char '/')
      = { initState with searchActive := true, searchQuery := [] } :=
  ⟨rfl, slash_activates_search demoItems initState rfl⟩

/-- C5 (counterexample): after moving the selection down to index 1,
pressing `/` activates search and clears the query but does not reset
`selectedIndex` to 0 (it stays 1), refuting the claimed selection/scroll
reset. -/
theorem slash_no_reset_cex :
    (runKeys demoItems [Key.down]).searchActive = false ∧
    (runKeys demoItems [Key.down]).selectedIndex = 1 ∧
    (runKeys demoItems [Key.down, Key.char '/']).searchActive = true ∧
    (runKeys demoItems [Key.down, Key.char '/']).searchQuery = [] ∧
    (runKeys demoItems [Key.down, Key.char '/']).selectedIndex = 1 := by
  exact ⟨rfl, rfl, rfl, rfl, rfl⟩

/-! ## `src/parser.ts` — prompt segmentation parser

The parser is parameterised by the opaque token counter
(`estimateTokens`, an external BPE library) as `tok : Str → Nat`. -/

/-- `AgentsFileEntry` of `types.ts`. -/
structure AgentsFileEntry where
  path : Str
  chars : Nat
  tokens : Nat
  deriving DecidableEq, Repr

/-- `measure` (`parser.ts` lines 32–34). -/
def measure (tok : Str → Nat) (label : Str) (text : Str) : PromptSection :=
  { label := label, chars := text.length, tokens := tok text, children := none }

/-- `firstPositive` (`parser.ts` lines 37–45): smallest non-negative value,
`-1` if none. -/
def firstPositive (values : List Int) : Int :=
  values.foldl (fun m v => if v ≥ 0 ∧ (m < 0 ∨ v < m) then v else m) (-1)

/-- The anchor literals of `parseSystemPrompt`. -/
def projectCtxMarker : Str := "\n\n# Project Context\n".data

def skillsPreambleMarker : Str :=
  "\n\nThe following skills provide specialized instructions".data

def availOpenTag : Str := "<available_skills>".data

def availCloseTag : Str := "</available_skills>".data

def dateCore : Str := "Current date and time:".data

def dateNlMarker : Str := "\nCurrent date and time:".data

def piDocsAlt1 : Str := "- Always read pi".data

def piDocsAlt2 : Str := "- When working on pi".data

def basePromptLabel : Str := "Base prompt".data

def agentsLabel : Str := "AGENTS.md files".data

def sysmdLabel : Str := "SYSTEM.md / APPEND_SYSTEM.md".data

def metaLabel : Str := "Metadata (date/time, cwd)".data

/-- Split into `\n`-terminated lines, keeping each line's start index
(used for the multiline `^…$` regexes of `parser.ts`). -/
def linesPosAux (p curStart : Nat) (cur : Str) : Str → List (Nat × Str)
  | [] => [(curStart, cur.reverse)]
  | c :: t =>
    if c = '\n' then (curStart, cur.reverse) :: linesPosAux (p + 1) (p + 1) [] t
    else linesPosAux (p + 1) curStart (c :: cur) t

def linesPos (s : Str) : List (Nat × Str) := linesPosAux 0 0 [] s

/-- A line matching `/^- (?:Always read pi|When working on pi).+$/`
(`parser.ts` line 60): one of the two literal alternatives followed by at
least one further character on the same line. -/
def lineMatchesPiDocs (l : Str) : Bool :=
  (piDocsAlt1.isPrefixOf l && decide (piDocsAlt1.length < l.length)) ||
    (piDocsAlt2.isPrefixOf l && decide (piDocsAlt2.length < l.length))

/-- End offset of the last pi-docs marker line, or `-1`
(`parser.ts` lines 61–64). -/
def lastPiDocsEnd (prompt : Str) : Int :=
  (linesPos prompt).foldl
    (fun acc pl =>
      if lineMatchesPiDocs pl.2 then ((pl.1 + pl.2.length : Nat) : Int) else acc)
    (-1)

/-- `findBasePromptEnd` (`parser.ts` lines 54–71). -/
def findBasePromptEnd (prompt : Str)
    (projectCtxIdx skillsPreambleIdx dateLineIdx : Int) : Int :=
  if lastPiDocsEnd prompt ≠ -1 then lastPiDocsEnd prompt
  else firstPositive [projectCtxIdx, skillsPreambleIdx, dateLineIdx]

/-- A heading line matching `/^## (\/.+)$/` (`parser.ts` line 77): starts
with `## /` and has at least one more character after the slash. -/
def agentsHeadingMatches (l : Str) : Bool :=
  ("## /".data).isPrefixOf l && decide (4 < l.length)

/-- Turn the matched heading lines into per-file blocks, each running to
the next heading or the end of the context block
(`parser.ts` lines 80–91). -/
def agentsBlocks (tok : Str → Nat) (contextBlock : Str) :
    List (Nat × Str) → List AgentsFileEntry
  | [] => []
  | (p, l) :: rest =>
    let e : Nat := match rest with
      | [] => contextBlock.length
      | (p2, _) :: _ => p2
    let blockText := jsSlice contextBlock (p : Int) (e : Int)
    { path := l.drop 3, chars := blockText.length, tokens := tok blockText }
      :: agentsBlocks tok contextBlock rest

/-- `parseAgentsFiles` (`parser.ts` lines 74–94). -/
def parseAgentsFiles (tok : Str → Nat) (contextBlock : Str) : List AgentsFileEntry :=
  agentsBlocks tok contextBlock
    ((linesPos contextBlock).filter fun pl => agentsHeadingMatches pl.2)

/-- Non-greedy `/<skill>([\s\S]*?)<\/skill>/g` extraction: repeatedly find
the next `<skill>` and the first `</skill>` after it, yielding
`(fullEntry, inner)` pairs (`parser.ts` lines 97–117).  Each step consumes
at least the two tags (15 characters), so `s.length + 1` fuel always
suffices for the unbounded scan. -/
def skillBlocksGo : Nat → Str → List (Str × Str)
  | 0, _ => []
  | fuel + 1, s =>
    let i := listIndexOf s ("<skill>".data)
    if i < 0 then []
    else
      let afterOpen := s.drop (i.toNat + 7)
      let j := listIndexOf afterOpen ("</skill>".data)
      if j < 0 then []
      else
        let inner := afterOpen.take j.toNat
        let full := ("<skill>".data) ++ inner ++ ("</skill>".data)
        (full, inner) :: skillBlocksGo fuel (afterOpen.drop (j.toNat + 8))

def skillBlocks (s : Str) : List (Str × Str) := skillBlocksGo (s.length + 1) s

/-- First non-greedy `<tag>…</tag>` match inside a skill entry: the first
open tag followed by the first close tag after it. -/
def matchTagFirst (openT closeT s : Str) : Option Str :=
  let p := listIndexOf s openT
  if p < 0 then none
  else
    let rest := s.drop (p.toNat + openT.length)
    let q := listIndexOf rest closeT
    if q < 0 then none else some (rest.take q.toNat)

/-- `parseSkillEntries` (`parser.ts` lines 97–117): name defaults to
`"unknown"`, description and location to the empty string. -/
def parseSkillEntries (tok : Str → Nat) (xmlBlock : Str) : List SkillEntry :=
  (skillBlocks xmlBlock).map fun fe =>
    { name := ((matchTagFirst ("<name>".data) ("</name>".data) fe.2).map trimStr).getD
        ("unknown".data),
      description :=
        ((matchTagFirst ("<description>".data) ("</description>".data) fe.2).map
          trimStr).getD [],
      location :=
        ((matchTagFirst ("<location>".data) ("</location>".data) fe.2).map trimStr).getD [],
      chars := fe.1.length,
      tokens := tok fe.1 }

/-- `findSkillsSectionEnd` (`parser.ts` lines 120–132). -/
def findSkillsSectionEnd (availableSkillsEnd dateLineIdx : Int) (promptLength : Nat) :
    Int :=
  if availableSkillsEnd ≠ -1 then availableSkillsEnd + availCloseTag.length
  else if dateLineIdx ≠ -1 then dateLineIdx
  else promptLength

/-- The five anchor indices computed at the top of `parseSystemPrompt`
(`parser.ts` lines 151–157). -/
def piProjectCtxIdx (s : Str) : Int := listIndexOf s projectCtxMarker

def piSkillsPreambleIdx (s : Str) : Int := listIndexOf s skillsPreambleMarker

def piAvailStart (s : Str) : Int := listIndexOf s availOpenTag

def piAvailEnd (s : Str) : Int := listIndexOf s availCloseTag

def piDateLineIdx (s : Str) : Int := listLastIndexOf s dateNlMarker

/-- `baseEnd` of `parseSystemPrompt` (`parser.ts` lines 160–165). -/
def piBaseEnd (s : Str) : Int :=
  findBasePromptEnd s (piProjectCtxIdx s) (piSkillsPreambleIdx s) (piDateLineIdx s)

/-- `nextSectionStart` of `parseSystemPrompt` (`parser.ts` lines 231–232):
the project-context anchor when present, otherwise the skills-preamble
anchor. -/
def piNextSectionStart (s : Str) : Int :=
  if piProjectCtxIdx s = -1 then piSkillsPreambleIdx s else piProjectCtxIdx s

/-- The raw SYSTEM.md gap text (`parser.ts` line 235). -/
def piGap (s : Str) : Str := jsSlice s (piBaseEnd s) (piNextSectionStart s)

/-- The trimmed SYSTEM.md gap text (`parser.ts` line 236). -/
def piGapTrimmed (s : Str) : Str := trimStr (piGap s)

/-- Section 1, the base prompt (`parser.ts` lines 166–167). -/
def piBaseSection (tok : Str → Nat) (s : Str) : PromptSection :=
  measure tok basePromptLabel (if piBaseEnd s ≥ 0 then jsSlice s 0 (piBaseEnd s) else s)

/-- Section 2, Project Context / AGENTS.md files (`parser.ts` lines 170–189). -/
def piAgentsSections (tok : Str → Nat) (s : Str) : List PromptSection :=
  if piProjectCtxIdx s ≠ -1 then
    let contextStart := piProjectCtxIdx s + 2
    let contextEnd := firstPositive [piSkillsPreambleIdx s, piDateLineIdx s]
    let contextBlock :=
      if contextEnd ≥ 0 then jsSlice s contextStart contextEnd
      else jsSliceFrom s contextStart
    let agentsFiles := parseAgentsFiles tok contextBlock
    let children := agentsFiles.map fun f =>
      ({ label := f.path, chars := f.chars, tokens := f.tokens } : PromptChild)
    [{ measure tok agentsLabel contextBlock with children := some children }]
  else []

/-- The flat skill list of the result (filled inside the skills branch,
`parser.ts` lines 204–210). -/
def piSkills (tok : Str → Nat) (s : Str) : List SkillEntry :=
  if piSkillsPreambleIdx s ≠ -1 ∧ piAvailStart s ≠ -1 ∧ piAvailEnd s ≠ -1 then
    parseSkillEntries tok (jsSlice s (piAvailStart s) (piAvailEnd s + availCloseTag.length))
  else []

/-- The `Skills (N)` label. -/
def skillsLabel (n : Nat) : Str :=
  ("Skills (".data) ++ (toString n).data ++ (")".data)

/-- Section 3, Skills (`parser.ts` lines 192–222). -/
def piSkillsSections (tok : Str → Nat) (s : Str) : List PromptSection :=
  if piSkillsPreambleIdx s ≠ -1 then
    let skillsSectionStart := piSkillsPreambleIdx s + 2
    let skillsSectionEnd := findSkillsSectionEnd (piAvailEnd s) (piDateLineIdx s) s.length
    let skillsSectionText := jsSlice s skillsSectionStart skillsSectionEnd
    let skills := piSkills tok s
    let children := skills.map fun sk =>
      ({ label := sk.name, chars := sk.chars, tokens := sk.tokens } : PromptChild)
    [{ measure tok (skillsLabel skills.length) skillsSectionText with
        children := some children }]
  else []

/-- Section 4, the metadata footer (`parser.ts` lines 225–228). -/
def piMetaSections (tok : Str → Nat) (s : Str) : List PromptSection :=
  if piDateLineIdx s ≠ -1 then
    [measure tok metaLabel (jsSliceFrom s (piDateLineIdx s + 1))]
  else []

/-- `parseSystemPrompt` (`parser.ts` lines 147–246): push the sections in
source order, then splice the SYSTEM.md gap section in at index 1 when the
trimmed gap is non-empty, and measure the totals over the whole input. -/
def parseSystemPrompt (tok : Str → Nat) (prompt : Str) : ParsedPrompt :=
  let pre := piBaseSection tok prompt ::
    (piAgentsSections tok prompt ++ piSkillsSections tok prompt
      ++ piMetaSections tok prompt)
  let sections :=
    if piBaseEnd prompt ≥ 0 ∧ piNextSectionStart prompt ≥ 0 ∧
        piNextSectionStart prompt > piBaseEnd prompt then
      if (piGapTrimmed prompt).length > 0 then
        pre.insertIdx 1 (measure tok sysmdLabel (piGapTrimmed prompt))
      else pre
    else pre
  { sections := sections, totalChars := prompt.length,
    totalTokens := tok prompt, skills := piSkills tok prompt }

/-- Length-based stand-in token counter for concrete instantiations. -/
def tokLen : Str → Nat := fun t => t.length

set_option maxRecDepth 10000

example :
    ((parseSystemPrompt tokLen
        (("- Always read pi docs\nLine2\nCurrent date and time: now").data)).sections.map
      (fun sec => sec.label)) = [basePromptLabel, metaLabel] := by
  decide

example :
    ((parseSystemPrompt tokLen
        (("- Always read pi docs\nGAP\n\n# Project Context\n## /a/AGENTS.md\nbody\n\nThe following skills provide specialized instructions\n<available_skills>\n<skill>\n<name>sk1</name>\n</skill>\n</available_skills>\nCurrent date and time: now").data)).sections.map
      (fun sec => sec.label))
    = [basePromptLabel, sysmdLabel, agentsLabel, skillsLabel 1, metaLabel] := by
  decide

/-- C1: for every token counter and every input string, including the
empty string, `parseSystemPrompt` reports `totalChars` as the length of
the whole input and `totalTokens` as the counter applied to the whole
input — never a sum of per-section figures. -/
theorem parseSystemPrompt_totals (tok : Str → Nat) (prompt : Str) :
    (parseSystemPrompt tok prompt).totalChars = prompt.length ∧
    (parseSystemPrompt tok prompt).totalTokens = tok prompt :=
  ⟨rfl, rfl⟩

/-! ### Characterising `listLastIndexOf` -/

theorem listLastIndexOf_of_none (pat : Str) (hp : pat ≠ []) :
    ∀ s : Str, (∀ m : Nat, pat.isPrefixOf (s.drop m) = false) →
      listLastIndexOf s pat = -1 := by
  intro s
  induction s with
  | nil =>
    intro h
    unfold listLastIndexOf
    rw [if_neg (by simp [hp])]
  | cons c t ih =>
    intro h
    unfold listLastIndexOf
    have ht : listLastIndexOf t pat = -1 := ih fun m => h (m + 1)
    rw [ht]
    rw [if_neg (by omega), if_neg (by
      intro hpre
      have h1 : pat.isPrefixOf (c :: t) = false := by simpa using h 0
      rw [hpre] at h1
      exact absurd h1 (by simp))]

theorem listLastIndexOf_eq (pat : Str) (hp : pat ≠ []) :
    ∀ (s : Str) (n : Nat), pat.isPrefixOf (s.drop n) = true →
      (∀ m : Nat, n < m → pat.isPrefixOf (s.drop m) = false) →
      listLastIndexOf s pat = n := by
  intro s
  induction s with
  | nil =>
    intro n hn hmax
    rw [List.drop_nil] at hn
    have : pat <+: ([] : Str) := List.isPrefixOf_iff_prefix.mp hn
    exact absurd (List.prefix_nil.mp this) hp
  | cons c t ih =>
    intro n hn hmax
    unfold listLastIndexOf
    cases n with
    | zero =>
      have ht : listLastIndexOf t pat = -1 :=
        listLastIndexOf_of_none pat hp t fun m => hmax (m + 1) (by omega)
      rw [ht]
      rw [if_neg (by omega), if_pos (by simpa using hn)]
      simp
    | succ k =>
      have ht : listLastIndexOf t pat = k :=
        ih k (by simpa using hn) fun m hm => by simpa using hmax (m + 1) (by omega)
      rw [ht]
      rw [if_pos (by omega)]
      push_cast
      ring

/-- A position where `"Current date and time:"` starts a line. -/
def lineStartOcc (s : Str) (k : Nat) : Prop :=
  dateCore.isPrefixOf (s.drop k) = true ∧ (k = 0 ∨ s.get? (k - 1) = some '\n')

instance (s : Str) (k : Nat) : Decidable (lineStartOcc s k) :=
  inferInstanceAs (Decidable (_ ∧ _))

theorem lineStartOcc_lt_length (s : Str) (k : Nat) (h : lineStartOcc s k) :
    k < s.length := by
  by_contra hc
  push_neg at hc
  have hdrop : s.drop k = [] := List.drop_eq_nil_of_le hc
  have h1 := h.1
  rw [hdrop] at h1
  have h2 : dateCore <+: ([] : Str) := List.isPrefixOf_iff_prefix.mp h1
  have h3 : dateCore = [] := List.prefix_nil.mp h2
  exact absurd h3 (by decide)

theorem nlMarker_prefix_iff (s : Str) (m : Nat) :
    dateNlMarker.isPrefixOf (s.drop m) = true ↔
      (s.get? m = some '\n' ∧ dateCore.isPrefixOf (s.drop (m + 1)) = true) := by
  constructor
  · intro h
    have hpre : dateNlMarker <+: s.drop m := List.isPrefixOf_iff_prefix.mp h
    obtain ⟨t, ht⟩ := hpre
    rw [show dateNlMarker = '\n' :: dateCore from rfl] at ht
    constructor
    · have h0 : (s.drop m).get? 0 = some '\n' := by rw [← ht]; rfl
      rw [List.get?_drop] at h0
      simpa using h0
    · have htail : (s.drop m).tail = s.drop (m + 1) := List.tail_drop s m
      rw [← ht] at htail
      simp only [List.cons_append, List.tail_cons] at htail
      exact List.isPrefixOf_iff_prefix.mpr ⟨t, htail⟩
  · rintro ⟨h1, h2⟩
    obtain ⟨hm, hget⟩ := List.get?_eq_some.mp h1
    have hdm : s.drop m = '\n' :: s.drop (m + 1) := by
      rw [List.drop_eq_getElem_cons hm]
      congr 1
    rw [hdm, show dateNlMarker = '\n' :: dateCore from rfl]
    simpa [List.isPrefixOf] using h2

theorem getLast?_cons_append_concat {α : Type*} (b m : α) (L : List α) :
    (b :: (L ++ [m])).getLast? = some m := by
  rw [show b :: (L ++ [m]) = (b :: L) ++ [m] from rfl]
  exact List.getLast?_concat _

/-- C8: if the `"Current date and time:"` line-prefix marker occurs more
than once, the emitted `"Metadata (date/time, cwd)"` section starts at the
last occurrence — not the first — and spans from there to the end of the
string (it is the final section of the parse). -/
theorem metadata_uses_last_marker (tok : Str → Nat) (s : Str) (i j : Nat)
    (hij : i < j) (_hi : lineStartOcc s i) (hj : lineStartOcc s j)
    (hmax : ∀ k, k < s.length → lineStartOcc s k → k ≤ j) :
    (parseSystemPrompt tok s).sections.getLast?
      = some (measure tok metaLabel (s.drop j)) := by
  have hjlen : j < s.length := lineStartOcc_lt_length s j hj
  have hjpos : 0 < j := by omega
  have hnl : s.get? (j - 1) = some '\n' := by
    rcases hj.2 with h | h
    · omega
    · exact h
  -- the `\n`-prefixed marker occurs at `j - 1` and nowhere later
  have hpref : dateNlMarker.isPrefixOf (s.drop (j - 1)) = true := by
    rw [nlMarker_prefix_iff]
    refine ⟨hnl, ?_⟩
    rw [show j - 1 + 1 = j by omega]
    exact hj.1
  have hmax2 : ∀ m : Nat, j - 1 < m → dateNlMarker.isPrefixOf (s.drop m) = false := by
    intro m hm
    by_contra hc
    have hc2 : dateNlMarker.isPrefixOf (s.drop m) = true := by
      cases h : dateNlMarker.isPrefixOf (s.drop m)
      · exact absurd h hc
      · rfl
    obtain ⟨hmn, hmc⟩ := (nlMarker_prefix_iff s m).mp hc2
    have hocc : lineStartOcc s (m + 1) := ⟨hmc, Or.inr (by simpa using hmn)⟩
    have hlt : m + 1 < s.length := lineStartOcc_lt_length s (m + 1) hocc
    have := hmax (m + 1) hlt hocc
    omega
  have hlast : piDateLineIdx s = ((j - 1 : Nat) : Int) :=
    listLastIndexOf_eq dateNlMarker (by decide) s (j - 1) hpref hmax2
  -- the metadata section measures the suffix starting at `j`
  have hslice : jsSliceFrom s (((j - 1 : Nat) : Int) + 1) = s.drop j := by
    unfold jsSliceFrom jsSlice jsClamp
    rw [if_neg (by omega), if_neg (by omega)]
    rw [show ((s.length : Int)).toNat = s.length by omega]
    rw [min_self, List.take_length]
    congr 1
    omega
  have hmeta : piMetaSections tok s = [measure tok metaLabel (s.drop j)] := by
    unfold piMetaSections
    rw [hlast, if_pos (by omega)]
    rw [hslice]
  -- the metadata section is last, with or without the SYSTEM.md splice
  unfold parseSystemPrompt
  dsimp only
  rw [hmeta]
  split_ifs
  · -- spliced: base :: gap :: rest, with the metadata entry still last
    rw [show List.insertIdx 1 (measure tok sysmdLabel (piGapTrimmed s))
        (piBaseSection tok s ::
          ((piAgentsSections tok s ++ piSkillsSections tok s)
            ++ [measure tok metaLabel (s.drop j)]))
        = piBaseSection tok s ::
          ((measure tok sysmdLabel (piGapTrimmed s) ::
            (piAgentsSections tok s ++ piSkillsSections tok s))
            ++ [measure tok metaLabel (s.drop j)]) from rfl]
    exact getLast?_cons_append_concat _ _ _
  · exact getLast?_cons_append_concat _ _ _
  · exact getLast?_cons_append_concat _ _ _

/-- A prompt in which the date marker starts a line twice. -/
def twoDatesPrompt : Str :=
  ("Current date and time: A\nCurrent date and time: B").data

theorem metadata_uses_last_marker_witness :
    ((0 : Nat) < 25 ∧ lineStartOcc twoDatesPrompt 0 ∧ lineStartOcc twoDatesPrompt 25 ∧
      ∀ k, k < twoDatesPrompt.length → lineStartOcc twoDatesPrompt k → k ≤ 25) ∧
    (parseSystemPrompt tokLen twoDatesPrompt).sections.getLast?
      = some (measure tokLen metaLabel (twoDatesPrompt.drop 25)) :=
  ⟨⟨by decide, by decide, by decide, by decide⟩,
    metadata_uses_last_marker tokLen twoDatesPrompt 0 25 (by decide) (by decide)
      (by decide) (by decide)⟩

/-- C9 (amended): whenever the base-prompt end and the code's
`nextSectionStart` anchor — the project-context anchor when present,
otherwise the skills-preamble anchor — both exist with the anchor strictly
after the base end, and the text between them is non-empty after trimming,
`parseSystemPrompt` splices a `"SYSTEM.md / APPEND_SYSTEM.md"` section
measuring that trimmed gap at index 1, immediately after the
`"Base prompt"` section at index 0. -/
theorem gap_section_spliced (tok : Str → Nat) (s : Str)
    (h1 : piBaseEnd s ≥ 0) (h2 : piNextSectionStart s ≥ 0)
    (h3 : piNextSectionStart s > piBaseEnd s)
    (h4 : (piGapTrimmed s).length > 0) :
    (parseSystemPrompt tok s).sections.get? 0 = some (piBaseSection tok s) ∧
    (parseSystemPrompt tok s).sections.get? 1
      = some (measure tok sysmdLabel (piGapTrimmed s)) := by
  unfold parseSystemPrompt
  dsimp only
  rw [if_pos ⟨h1, h2, h3⟩, if_pos h4]
  exact ⟨rfl, rfl⟩

/-- A prompt with a SYSTEM.md gap between the pi-docs line and the
project-context anchor. -/
def gapPrompt : Str :=
  ("- Always read pi docs\nGAP\n\n# Project Context\nrest").data

theorem gap_section_spliced_witness :
    (piBaseEnd gapPrompt ≥ 0 ∧ piNextSectionStart gapPrompt ≥ 0 ∧
      piNextSectionStart gapPrompt > piBaseEnd gapPrompt ∧
      (piGapTrimmed gapPrompt).length > 0) ∧
    ((parseSystemPrompt tokLen gapPrompt).sections.get? 0
        = some (piBaseSection tokLen gapPrompt) ∧
      (parseSystemPrompt tokLen gapPrompt).sections.get? 1
        = some (measure tokLen sysmdLabel (piGapTrimmed gapPrompt))) :=
  ⟨⟨by decide, by decide, by decide, by decide⟩,
    gap_section_spliced tokLen gapPrompt (by decide) (by decide) (by decide) (by decide)⟩

/-- A prompt in which the skills preamble comes before the project-context
anchor, so the "earlier" anchor is the skills preamble while the code's
`nextSectionStart` is the later project-context anchor. -/
def outOfOrderPrompt : Str :=
  ("- Always read pi docs\nGAP\n\nThe following skills provide specialized instructions blah\n\n# Project Context\nrest").data

/-- C9 (counterexample): on `outOfOrderPrompt` the base end and the
earlier anchor (the skills preamble, at 25) exist, and the text strictly
between them trims to `"GAP"` of length 3 — yet the emitted
`"SYSTEM.md / APPEND_SYSTEM.md"` section at index 1 does not measure 3
characters, because the code slices the gap up to the later
project-context anchor, not the earlier skills-preamble anchor. -/
theorem gap_section_earlier_anchor_cex :
    (piBaseEnd outOfOrderPrompt ≥ 0 ∧ piSkillsPreambleIdx outOfOrderPrompt ≥ 0 ∧
      piBaseEnd outOfOrderPrompt < piSkillsPreambleIdx outOfOrderPrompt ∧
      piSkillsPreambleIdx outOfOrderPrompt < piProjectCtxIdx outOfOrderPrompt ∧
      (trimStr (jsSlice outOfOrderPrompt (piBaseEnd outOfOrderPrompt)
        (piSkillsPreambleIdx outOfOrderPrompt))).length = 3) ∧
    ((parseSystemPrompt tokLen outOfOrderPrompt).sections.get? 1).map
        (fun sec => sec.label) = some sysmdLabel ∧
    ((parseSystemPrompt tokLen outOfOrderPrompt).sections.get? 1).map
        (fun sec => decide (sec.chars = 3)) = some false := by
  exact ⟨⟨by decide, by decide, by decide, by decide, by decide⟩, by decide, by decide⟩

example :
    buildBarSegments [⟨['A'], 50⟩, ⟨['B'], 50⟩] 40 = [⟨['A'], 20⟩, ⟨['B'], 20⟩] := by
  decide

example :
    ((buildBarSegments [⟨['B'], 10000⟩, ⟨['T'], 1⟩, ⟨['U'], 1⟩] 10).map
      BarSegment.width) = [8, 1, 1] := by
  decide

example :
    ((buildBarSegments [⟨['A'], 0⟩, ⟨['B'], 0⟩] 20).map BarSegment.width) = [10, 10] := by
  decide

example :
    ((buildBarSegments [⟨['B'], 9900⟩, ⟨['T'], 1⟩] 40).map BarSegment.width).sum = 40 := by
  decide

example :
    (fuzzyFilter (fun s : Str => s) ["omarchy".data, "agent-browser".data] "browser".data) =
      ["agent-browser".data] := by
  decide

end PiTokenBurden
